import Mathlib

/-!
Verification development for the HoudiniEngineForUnreal-v2 excerpt:
shallow embeddings of `FHoudiniPackageParams` (HoudiniPackageParams.h) and
of `FHoudiniEngineRuntimeUtils` (HoudiniEngineRuntimeUtils.cpp), with
theorems about package-path token population, actor bounds queries, safe
object deletion and component property propagation.

Host-engine primitives (object validity, reference gathering, archetype
enumeration, bounding boxes) are modelled as explicit inputs; machine
`int32` fields are modelled as `Int`; `FString` as `String`; `TMap` as an
association list with replace-on-add; `TSet` as a duplicate-free list.
-/

namespace HoudiniProof

/-! ## TMap / TSet models -/

/-- `TMap<FString, FString>` as an association list.  `TMap::Add` replaces
the value when the key is already present, otherwise appends. -/
abbrev TokenMap := List (String × String)

/-- `TMap::Add`: replace the value at `k` when present, else append. -/
def tmapAdd (m : TokenMap) (k v : String) : TokenMap :=
  if (List.any m (fun kv => kv.1 == k)) then
    List.map (fun kv => if kv.1 == k then (k, v) else kv) m
  else
    m ++ [(k, v)]

/-- `TMap::Find`: the value stored at key `k`, if any. -/
def tmapFind (m : TokenMap) (k : String) : Option String :=
  Option.map Prod.snd (List.find? (fun kv => kv.1 == k) m)

/-- `TSet::Add` on a duplicate-free list: append when not yet present. -/
def tsetAdd (s : List Nat) (x : Nat) : List Nat :=
  if s.contains x then s else s ++ [x]

/-! ## FPaths -/

/-- `FPaths::GetPath`: the part of a path before its last separator
(empty when the path has no separator). -/
def FPathsGetPath (p : String) : String :=
  match List.dropWhile (fun c => c ≠ '/') (List.reverse p.toList) with
  | [] => ""
  | _ :: rest => String.mk (List.reverse rest)

/-! ## FHoudiniPackageParams -/

/-- `EPackageMode` from HoudiniPackageParams.h. -/
inductive EPackageMode : Type where
  | CookToLevel
  | CookToTemp
  | Bake
deriving DecidableEq, Repr

/-- `EPackageReplaceMode` from HoudiniPackageParams.h. -/
inductive EPackageReplaceMode : Type where
  | CreateNewAssets
  | ReplaceExistingAssets
deriving DecidableEq, Repr

/-- The `FHoudiniPackageParams` value object.  `FGuid ComponentGUID` is
modelled by the string `ComponentGUID.ToString()` would produce. -/
structure FHoudiniPackageParams where
  PackageMode : EPackageMode
  ReplaceMode : EPackageReplaceMode
  BakeFolder : String
  TempCookFolder : String
  ObjectName : String
  HoudiniAssetName : String
  HoudiniAssetActorName : String
  ObjectId : Int
  GeoId : Int
  PartId : Int
  SplitStr : String
  ComponentGUIDString : String
  PDGTOPNetworkName : String
  PDGTOPNodeName : String
  PDGWorkItemIndex : Int

/-- Modelled from the spec: `FHoudiniPackageParams::GetPackagePath` is
implemented in HoudiniPackageParams.cpp, which is not part of this excerpt;
the spec describes package naming as deriving "a name/path string from the
mode-selected folder plus identifier fields".  The bake folder is selected
in `Bake` mode and the temp cook folder in the cook modes, followed by
identifier fields. -/
def FHoudiniPackageParams.GetPackagePath (p : FHoudiniPackageParams) : String :=
  (match p.PackageMode with
   | EPackageMode.Bake => p.BakeFolder
   | _ => p.TempCookFolder) ++ "/" ++ p.HoudiniAssetName

/-- `FHoudiniPackageParams::UpdateOutputPathTokens` (HoudiniPackageParams.h,
lines 212-235): adds the `temp`, `bake`, `out_basepath` and `out` tokens;
`out_basepath` comes from `TempCookFolder` in the cook modes and from
`BakeFolder` in `Bake` mode. -/
def FHoudiniPackageParams.UpdateOutputPathTokens (p : FHoudiniPackageParams)
    (InPackageMode : EPackageMode) (m : TokenMap) : TokenMap :=
  let packagePath := p.GetPackagePath
  let m := tmapAdd m "temp" (FPathsGetPath p.TempCookFolder)
  let m := tmapAdd m "bake" (FPathsGetPath p.BakeFolder)
  let m :=
    match InPackageMode with
    | EPackageMode.CookToTemp => tmapAdd m "out_basepath" (FPathsGetPath p.TempCookFolder)
    | EPackageMode.CookToLevel => tmapAdd m "out_basepath" (FPathsGetPath p.TempCookFolder)
    | EPackageMode.Bake => tmapAdd m "out_basepath" (FPathsGetPath p.BakeFolder)
  tmapAdd m "out" (FPathsGetPath packagePath)

/-- `FHoudiniPackageParams::UpdateTokensFromParams` (HoudiniPackageParams.h,
lines 191-210).  `WorldContext->GetPathName()` is passed in as a string. -/
def FHoudiniPackageParams.UpdateTokensFromParams (p : FHoudiniPackageParams)
    (worldPathName : String) (m : TokenMap) : TokenMap :=
  let m := p.UpdateOutputPathTokens p.PackageMode m
  let m := tmapAdd m "world" (FPathsGetPath worldPathName)
  let m := tmapAdd m "object_name" p.ObjectName
  let m := tmapAdd m "object_id" (toString p.ObjectId)
  let m := tmapAdd m "geo_id" (toString p.GeoId)
  let m := tmapAdd m "part_id" (toString p.PartId)
  let m := tmapAdd m "split_str" p.SplitStr
  let m := tmapAdd m "hda_name" p.HoudiniAssetName
  let m := tmapAdd m "hda_actor_name" p.HoudiniAssetActorName
  let m := tmapAdd m "pdg_topnet_name" p.PDGTOPNetworkName
  let m := tmapAdd m "pdg_topnode_name" p.PDGTOPNodeName
  let m := tmapAdd m "pdg_workitem_index" (toString p.PDGWorkItemIndex)
  tmapAdd m "guid" p.ComponentGUIDString

/-- A concrete `FHoudiniPackageParams` used to evaluate the token map. -/
def sampleParams : FHoudiniPackageParams :=
  { PackageMode := EPackageMode.CookToTemp
    ReplaceMode := EPackageReplaceMode.ReplaceExistingAssets
    BakeFolder := "/Game/Bake/Out"
    TempCookFolder := "/Game/Temp/Cook"
    ObjectName := "obj"
    HoudiniAssetName := "MyHda"
    HoudiniAssetActorName := "MyHdaActor"
    ObjectId := 1
    GeoId := 2
    PartId := 3
    SplitStr := "s"
    ComponentGUIDString := "0123456789ABCDEF"
    PDGTOPNetworkName := "net"
    PDGTOPNodeName := "node"
    PDGWorkItemIndex := 4 }

/-! ## Actor bounding-box query (`FindActorsOfClassInBounds`) -/

/-- `FBox` with integer coordinates; `FBox::Intersect` is pure comparison
logic, so the float coordinates are modelled by integers. -/
structure FBox where
  minX : Int
  minY : Int
  minZ : Int
  maxX : Int
  maxY : Int
  maxZ : Int
deriving DecidableEq

/-- `FBox::Intersect`: per-axis separation test. -/
def FBox.intersect (b o : FBox) : Bool :=
  if b.minX > o.maxX || o.minX > b.maxX then false
  else if b.minY > o.maxY || o.minY > b.maxY then false
  else if b.minZ > o.maxZ || o.minZ > b.maxZ then false
  else true

/-- An actor as seen by `FindActorsOfClassInBounds`: host-API answers
(validity, `GetClass()->IsChildOf(ActorType)`, class name, component
bounding box) are fields. -/
structure ActorModel where
  id : Nat
  isValid : Bool
  isChildOfActorType : Bool
  className : String
  bbox : FBox
deriving DecidableEq

/-- A `UWorld` as seen by the query: validity plus the actors the
`TActorIterator` yields, in iteration order. -/
structure WorldModel where
  isValid : Bool
  actors : List ActorModel

/-- ASCII case folding of a string to code points, for the
case-insensitive comparison `FString::Contains` performs. -/
def lowerCodes (s : String) : List Nat :=
  List.map (fun c => let n := c.toNat; if 65 ≤ n ∧ n ≤ 90 then n + 32 else n) s.toList

/-- `FString::Contains` with its default `ESearchCase::IgnoreCase`:
case-insensitive substring test. -/
def fstringContains (s sub : String) : Bool :=
  let sl := lowerCodes s
  let tl := lowerCodes sub
  List.any (List.range (sl.length + 1)) (fun i => List.isPrefixOf tl (List.drop i sl))

/-- The inner `for (auto InBounds : BBoxes)` loop: `continue` on
non-intersection, `break` (collect) on the first intersection. -/
def boxesIntersectLoop (actorBounds : FBox) : List FBox → Bool
  | [] => false
  | b :: rest =>
    if !(actorBounds.intersect b) then boxesIntersectLoop actorBounds rest
    else true

/-- Whether the actor is in the `ExcludeActors` array (null pointer excludes
nothing). -/
def isExcluded (excludeActors : Option (List Nat)) (a : ActorModel) : Bool :=
  match excludeActors with
  | some ex => ex.contains a.id
  | none => false

/-- The actor-iterator loop of `FindActorsOfClassInBounds`
(HoudiniEngineRuntimeUtils.cpp, lines 78-106). -/
def findActorsLoop (bboxes : List FBox) (excludeActors : Option (List Nat)) :
    List ActorModel → List ActorModel
  | [] => []
  | a :: rest =>
    if !a.isValid then findActorsLoop bboxes excludeActors rest
    else if !a.isChildOfActorType then findActorsLoop bboxes excludeActors rest
    else if isExcluded excludeActors a then findActorsLoop bboxes excludeActors rest
    else if fstringContains a.className "BP_Sky_Sphere" then
      findActorsLoop bboxes excludeActors rest
    else if boxesIntersectLoop a.bbox bboxes then
      a :: findActorsLoop bboxes excludeActors rest
    else findActorsLoop bboxes excludeActors rest

/-- `FHoudiniEngineRuntimeUtils::FindActorsOfClassInBounds`
(HoudiniEngineRuntimeUtils.cpp, lines 71-109).  Returns the C++ `bool`
result together with the final contents of `OutActors` (which is left
untouched when the world is invalid, since the early return precedes
`OutActors.Empty()`). -/
def FindActorsOfClassInBounds (world : WorldModel) (bboxes : List FBox)
    (excludeActors : Option (List Nat)) (outActors : List ActorModel) :
    Bool × List ActorModel :=
  if !world.isValid then (false, outActors)
  else (true, findActorsLoop bboxes excludeActors world.actors)

/-! ## Safe object deletion -/

/-- A `UObject` as seen by the deletion utilities: host-API answers
(`IsValid`, `GatherObjectReferencersForDeletion`, `DeleteSingleObject`,
`GetOutermost`, package validity, `FPackageName::DoesPackageExist`) are
fields. -/
structure UObjectModel where
  id : Nat
  isValid : Bool
  gatherSucceeds : Bool
  isReferenced : Bool
  isReferencedByUndo : Bool
  deleteSucceeds : Bool
  package : Nat
  packageValid : Bool
  packageExistsOnDisk : Bool
deriving DecidableEq

/-- The outcome of `SafeDeleteSingleObject`: the returned `bool`, the
`OutPackage` out-parameter, the `bOutPackageIsInMemoryOnly` out-parameter,
and whether `DeleteSingleObject` was called at all. -/
structure SafeDeleteSingleResult where
  bDeleted : Bool
  outPackage : Option Nat
  bOutPackageIsInMemoryOnly : Bool
  deleteSingleObjectCalled : Bool
deriving DecidableEq

/-- `FHoudiniEngineRuntimeUtils::SafeDeleteSingleObject`
(HoudiniEngineRuntimeUtils.cpp, lines 111-160).  When the object is
referenced only a warning is logged; `DeleteSingleObject` is never
reached and `bDeleted` stays `false`. -/
def SafeDeleteSingleObject (o : UObjectModel) : SafeDeleteSingleResult :=
  if !o.isValid then ⟨false, none, false, false⟩
  else if !o.gatherSucceeds then ⟨false, none, false, false⟩
  else if o.isReferenced then ⟨false, none, false, false⟩
  else if o.deleteSucceeds then
    if !o.packageValid || !o.packageExistsOnDisk then
      ⟨true, some o.package, true, true⟩
    else
      ⟨true, some o.package, false, true⟩
  else ⟨false, none, false, true⟩

/-- Observable events of a `SafeDeleteObjects` run, in order: an object
being popped and processed, the final `CollectGarbage` call, and the final
`CleanupAfterSuccessfulDelete` call. -/
inductive DelEvent : Type where
  | processed (id : Nat)
  | collectGarbage
  | cleanupAfterSuccessfulDelete (packages : List Nat)
deriving DecidableEq

/-- Whether an event is a garbage-collection / package-cleanup pass. -/
def DelEvent.isCollectionEvent : DelEvent → Bool
  | collectGarbage => true
  | cleanupAfterSuccessfulDelete _ => true
  | _ => false

/-- The mutable locals of `SafeDeleteObjects` plus the event trace and the
(optionally null) `OutObjectsNotDeleted` array. -/
structure DelState where
  numDeleted : Nat
  bGarbageCollectionRequired : Bool
  packagesToCleanUp : List Nat
  processedObjects : List Nat
  outObjectsNotDeleted : Option (List Nat)
  events : List DelEvent
deriving DecidableEq

/-- The `while (InObjectsToDelete.Num() > 0)` loop of `SafeDeleteObjects`
(HoudiniEngineRuntimeUtils.cpp, lines 169-202).  `Pop` takes from the back
of the array, so the caller passes the reversed array; the first component
of the result is the array contents when the loop exits. -/
def safeDeleteLoop : List UObjectModel → DelState → List UObjectModel × DelState
  | [], st => ([], st)
  | o :: rest, st =>
    if st.processedObjects.contains o.id then
      safeDeleteLoop rest st
    else
      let st1 := { st with processedObjects := st.processedObjects ++ [o.id],
                           events := st.events ++ [DelEvent.processed o.id] }
      if !o.isValid then safeDeleteLoop rest st1
      else
        let r := SafeDeleteSingleObject o
        if r.bDeleted then
          let st2 := { st1 with numDeleted := st1.numDeleted + 1 }
          if r.bOutPackageIsInMemoryOnly then
            safeDeleteLoop rest { st2 with bGarbageCollectionRequired := true }
          else
            safeDeleteLoop rest
              { st2 with packagesToCleanUp := tsetAdd st2.packagesToCleanUp (r.outPackage.getD 0) }
        else
          safeDeleteLoop rest
            { st1 with outObjectsNotDeleted :=
                Option.map (fun l => l ++ [o.id]) st1.outObjectsNotDeleted }

/-- The locals of `SafeDeleteObjects` at function entry. -/
def initialDelState (outObjectsNotDeleted : Option (List Nat)) : DelState :=
  { numDeleted := 0, bGarbageCollectionRequired := false, packagesToCleanUp := [],
    processedObjects := [], outObjectsNotDeleted := outObjectsNotDeleted, events := [] }

/-- `FHoudiniEngineRuntimeUtils::SafeDeleteObjects`
(HoudiniEngineRuntimeUtils.cpp, lines 162-212).  Returns the emptied input
array paired with the final state; the C++ return value is
`(·.2).numDeleted`. -/
def SafeDeleteObjects (inObjectsToDelete : List UObjectModel)
    (outObjectsNotDeleted : Option (List Nat)) : List UObjectModel × DelState :=
  let p := safeDeleteLoop (List.reverse inObjectsToDelete) (initialDelState outObjectsNotDeleted)
  let st := p.2
  let st :=
    if st.bGarbageCollectionRequired && decide (st.packagesToCleanUp.length ≤ 0) then
      { st with events := st.events ++ [DelEvent.collectGarbage] }
    else st
  if 0 < st.packagesToCleanUp.length then
    (p.1, { st with events := st.events ++ [DelEvent.cleanupAfterSuccessfulDelete st.packagesToCleanUp] })
  else (p.1, st)

/-- An object that `SafeDeleteSingleObject` deletes and whose package is
in-memory only (the condition that makes `SafeDeleteObjects` require a
garbage-collection pass). -/
def deletedInMemoryOnly (o : UObjectModel) : Prop :=
  o.isValid = true ∧ (SafeDeleteSingleObject o).bDeleted = true ∧
  (SafeDeleteSingleObject o).bOutPackageIsInMemoryOnly = true

/-- Invariant relating the state before and after the deletion loop: the
input array is emptied; each object id is processed at most once and only
ids of the batch are processed, with at most one deletion counted per
newly processed id; the loop emits only `processed` events; and the
garbage-collection flag is raised only by an object deleted with an
in-memory-only package. -/
def DelLoopOK (objs : List UObjectModel) (st : DelState)
    (res : List UObjectModel × DelState) : Prop :=
  res.1 = [] ∧
  (∃ new, res.2.processedObjects = st.processedObjects ++ new ∧
    List.Nodup new ∧
    (∀ x ∈ new, x ∈ List.map (fun o => o.id) objs ∧ x ∉ st.processedObjects) ∧
    res.2.numDeleted ≤ st.numDeleted + new.length) ∧
  (∃ evs, res.2.events = st.events ++ evs ∧
    ∀ e ∈ evs, ∃ i, e = DelEvent.processed i) ∧
  (res.2.bGarbageCollectionRequired = true →
    st.bGarbageCollectionRequired = true ∨ ∃ o ∈ objs, deletedInMemoryOnly o)

/-! ## Component property copying (`CopyComponentProperties`) -/

/-- One `FProperty` of the component class: its name and the flag tests the
copy loop performs (`CPF_Transient`;
`CPF_InstancedReference | CPF_ContainsInstancedReference`;
`CPF_Edit | CPF_Interp`; `CPF_DisableEditOnTemplate`). -/
structure PropModel where
  name : String
  transient : Bool
  instancedReference : Bool
  editOrInterp : Bool
  disableEditOnTemplate : Bool
deriving DecidableEq

/-- `EditorUtilities::FCopyOptions`: the `ECopyOptions` flag tests the copy
loop performs, plus the `CanCopyProperty` filter (called with the property
and the source component; modelled on the property name). -/
structure FCopyOptions where
  previewOnly : Bool
  propagateChangesToArchetypeInstances : Bool
  onlyCopyEditOrInterpProperties : Bool
  skipInstanceOnlyProperties : Bool
  callPostEditChangeProperty : Bool
  canCopyProperty : String → Bool

/-- Property values of every component: component id → property name →
value.  `FProperty::Identical_InContainer` is value equality at the
property's name. -/
abbrev CompValues := Nat → String → Nat

/-- The host object graph around the components: `GetArchetype`,
`IsCreatedByConstructionScript`, `IsRegistered`, `GetOwner`, and the result
of `TargetComponent->GetArchetypeInstances` (already cast to components, in
enumeration order). -/
structure ComponentWorld where
  archetype : Nat → Nat
  createdByConstructionScript : Nat → Bool
  isRegistered : Nat → Bool
  owner : Nat → Option Nat
  archetypeInstances : List Nat

/-- An object that can appear in the `ModifiedObjects` set: a component or
an owning actor (distinct `UObject`s, so the two constructors never
alias). -/
inductive EditorObj : Type where
  | comp (id : Nat)
  | actor (id : Nat)
deriving DecidableEq

/-- `EditorUtilities::CopySingleProperty`: write the source container's
value of the property into the destination container. -/
def copySingleProperty (vals : CompValues) (srcC dstC : Nat) (p : String) : CompValues :=
  fun c q => if c = dstC ∧ q = p then vals srcC q else vals c q

/-- Name test against `USceneComponent::GetRelativeScale3DPropertyName()`,
`GetRelativeLocationPropertyName()` and
`GetRelativeRotationPropertyName()`. -/
def isTransformPropertyName (n : String) : Bool :=
  n == "RelativeScale3D" || n == "RelativeLocation" || n == "RelativeRotation"

/-- The `while (CheckComponent != ComponentArchetypeInstance)` walk
(HoudiniEngineRuntimeUtils.cpp, lines 318-327): `some false` when a
component on the walk differs from the target at the property, `some true`
when the walk reaches the instance, `none` when the walk does not
terminate within `fuel` steps (the C++ loop would not terminate). -/
def archetypeChainCheck (w : ComponentWorld) (vals : CompValues) (p : String)
    (target inst : Nat) : Nat → Nat → Option Bool
  | _, 0 => none
  | checkComponent, fuel + 1 =>
    if checkComponent = inst then some true
    else if !(vals checkComponent p == vals target p) then some false
    else archetypeChainCheck w vals p target inst (w.archetype checkComponent) fuel

/-- Whether a component archetype instance is put into
`ComponentArchetypeInstancesToChange` for the current property
(HoudiniEngineRuntimeUtils.cpp, lines 310-335): its value must match the
target's pre-copy value, and when its direct archetype is not the target
the chain walk must succeed. -/
def shouldPropagateToInstance (w : ComponentWorld) (vals : CompValues) (p : String)
    (target inst : Nat) (fuel : Nat) : Option Bool :=
  if vals inst p == vals target p then
    if w.archetype inst ≠ target then
      archetypeChainCheck w vals p target inst (w.archetype inst) fuel
    else some true
  else some false

/-- The iterated-archetype chain from a component up to (excluding) the
target: the components `GetArchetype` steps through strictly between the
start and the first occurrence of the target, `none` when the target is
not reached within `fuel` steps. -/
def archetypeChainToTarget (w : ComponentWorld) (target : Nat) :
    Nat → Nat → Option (List Nat)
  | _, 0 => none
  | c, fuel + 1 =>
    if c = target then some []
    else Option.map (fun l => c :: l) (archetypeChainToTarget w target (w.archetype c) fuel)

/-- The mutable state the copy loop threads: the property values of every
component, the per-property `ModifiedObjects` set, the components given
`RF_Transactional` by `SetFlags`, the objects `Modify()` was called on (the
undo-transaction records), and `ComponentInstancesToReregister`. -/
structure CopyState where
  vals : CompValues
  modifiedObjects : List EditorObj
  transactionalFlagged : List Nat
  recordedForUndo : List EditorObj
  reregister : List Nat

/-- The body of the propagation loop for one archetype instance
(HoudiniEngineRuntimeUtils.cpp, lines 350-380): mark the instance
transactional and record it unless it was created by a construction script
or already modified, modify its owner, queue re-registration, then copy the
property from the target to the instance. -/
def propagateToInstance (w : ComponentWorld) (target : Nat) (p : String)
    (st : CopyState) (inst : Nat) : CopyState :=
  let st :=
    if EditorObj.comp inst ∈ st.modifiedObjects then st
    else
      let st :=
        if w.createdByConstructionScript inst then st
        else
          { st with transactionalFlagged := st.transactionalFlagged ++ [inst],
                    recordedForUndo := st.recordedForUndo ++ [EditorObj.comp inst],
                    modifiedObjects := st.modifiedObjects ++ [EditorObj.comp inst] }
      match w.owner inst with
      | none => st
      | some ow =>
        if EditorObj.actor ow ∈ st.modifiedObjects then st
        else
          { st with recordedForUndo := st.recordedForUndo ++ [EditorObj.actor ow],
                    modifiedObjects := st.modifiedObjects ++ [EditorObj.actor ow] }
  let st :=
    if w.isRegistered inst then { st with reregister := st.reregister ++ [inst] } else st
  { st with vals := copySingleProperty st.vals target inst p }

/-- The `for (InstanceIndex ...)` propagation loop
(HoudiniEngineRuntimeUtils.cpp, lines 348-381). -/
def propagateToInstances (w : ComponentWorld) (target : Nat) (p : String)
    (insts : List Nat) (st : CopyState) : CopyState :=
  List.foldl (propagateToInstance w target p) st insts

/-- One iteration of the property loop of `CopyComponentProperties`
(HoudiniEngineRuntimeUtils.cpp, lines 248-393), acting on
(state, copied count, names copied so far).  `none` when the archetype
chain walk of some instance does not terminate. -/
def processProperty (w : ComponentWorld) (opts : FCopyOptions) (src tgt : Nat)
    (ucsModified : List String) (instances : List Nat) (fuel : Nat)
    (acc : CopyState × Nat × List String) (p : PropModel) :
    Option (CopyState × Nat × List String) :=
  let st := acc.1
  let bIsTransient := p.transient
  let bIsIdentical := st.vals src p.name == st.vals tgt p.name
  let bIsComponent := p.instancedReference
  let bIsTransform := isTransformPropertyName p.name
  if !bIsTransient && !bIsIdentical && !bIsComponent
      && !(ucsModified.contains p.name) && !bIsTransform then
    let bIsSafeToCopy := (!opts.onlyCopyEditOrInterpProperties || p.editOrInterp)
                      && (!opts.skipInstanceOnlyProperties || !p.disableEditOnTemplate)
    if bIsSafeToCopy then
      if !opts.canCopyProperty p.name then some acc
      else if opts.previewOnly then some (st, acc.2.1 + 1, acc.2.2 ++ [p.name])
      else
        -- fresh per-property ModifiedObjects: the target is never in it, so it
        -- is flagged transactional and modified
        let st := { st with modifiedObjects := [EditorObj.comp tgt],
                            transactionalFlagged := st.transactionalFlagged ++ [tgt],
                            recordedForUndo := st.recordedForUndo ++ [EditorObj.comp tgt] }
        let toChange :=
          if opts.propagateChangesToArchetypeInstances then
            Option.map (fun ds => List.filterMap (fun (i, d) => if d then some i else none)
                (List.zip instances ds))
              (List.mapM (fun i => shouldPropagateToInstance w st.vals p.name tgt i fuel)
                instances)
          else some []
        match toChange with
        | none => none
        | some toChange =>
          let st := { st with vals := copySingleProperty st.vals src tgt p.name }
          let st :=
            if opts.propagateChangesToArchetypeInstances then
              propagateToInstances w tgt p.name toChange st
            else st
          some (st, acc.2.1 + 1, acc.2.2 ++ [p.name])
    else some acc
  else some acc

/-- The decision predicate of the copy loop with respect to a fixed value
assignment: a property is copied exactly when it is not transient, not
identical between source and target, not an instanced reference, not
UCS-modified, not one of the relative-transform properties, passes the
`OnlyCopyEditOrInterpProperties` / `SkipInstanceOnlyProperties` filters
and passes `CanCopyProperty`. -/
def shouldCopyProperty (opts : FCopyOptions) (vals : CompValues) (src tgt : Nat)
    (ucsModified : List String) (p : PropModel) : Bool :=
  !p.transient && !(vals src p.name == vals tgt p.name) && !p.instancedReference
  && !(ucsModified.contains p.name) && !(isTransformPropertyName p.name)
  && ((!opts.onlyCopyEditOrInterpProperties || p.editOrInterp)
      && (!opts.skipInstanceOnlyProperties || !p.disableEditOnTemplate))
  && opts.canCopyProperty p.name

/-- The copy condition exactly as the specification words it: non-transient,
non-identical between source and target, and not an instanced reference. -/
def specCopyCondition (vals : CompValues) (src tgt : Nat) (p : PropModel) : Bool :=
  !p.transient && !(vals src p.name == vals tgt p.name) && !p.instancedReference

/-- The outcome of `CopyComponentProperties`: final state, the returned
`CopiedPropertyCount`, and the names of the properties that were counted as
copied. -/
structure CopyResult where
  state : CopyState
  copiedPropertyCount : Nat
  copiedProps : List String

/-- `FHoudiniEngineRuntimeUtils::CopyComponentProperties`
(HoudiniEngineRuntimeUtils.cpp, lines 216-401).  The archetype-instance
list is gathered up front when propagation is requested, excluding the
source and target components; the property linked list is traversed in
order.  `none` when some archetype chain walk does not terminate within
`fuel`. -/
def CopyComponentProperties (w : ComponentWorld) (opts : FCopyOptions)
    (src tgt : Nat) (props : List PropModel) (ucsModified : List String)
    (vals : CompValues) (fuel : Nat) : Option CopyResult :=
  let instances :=
    if opts.propagateChangesToArchetypeInstances then
      List.filter (fun i => i ≠ src && i ≠ tgt) w.archetypeInstances
    else []
  let st0 : CopyState :=
    { vals := vals, modifiedObjects := [], transactionalFlagged := [],
      recordedForUndo := [], reregister := [] }
  Option.map (fun res => ⟨res.1, res.2.1, res.2.2⟩)
    (List.foldlM (processProperty w opts src tgt ucsModified instances fuel)
      (st0, 0, ([] : List String)) props)

/-! ### TMap lemmas -/

theorem find_map_replace_self (m : TokenMap) (k v : String)
    (h : List.any m (fun kv => kv.1 == k) = true) :
    List.find? (fun kv => kv.1 == k)
      (List.map (fun kv => if kv.1 == k then (k, v) else kv) m) = some (k, v) := by
  induction m with
  | nil => simp at h
  | cons a rest ih =>
    by_cases ha : a.1 = k
    · simp [List.find?, ha]
    · have ha' : (a.1 == k) = false := by simp [ha]
      simp only [List.any_cons, ha', Bool.false_or] at h
      simp only [List.map_cons, ha', if_neg, Bool.false_eq_true, not_false_iff, reduceIte,
        List.find?_cons, ha']
      exact ih h

theorem find_map_replace_other (m : TokenMap) (k v k' : String) (h : k' ≠ k) :
    List.find? (fun kv => kv.1 == k')
      (List.map (fun kv => if kv.1 == k then (k, v) else kv) m)
    = List.find? (fun kv => kv.1 == k') m := by
  induction m with
  | nil => rfl
  | cons a rest ih =>
    by_cases ha : a.1 = k
    · have h1 : (a.1 == k) = true := by simp [ha]
      have h2 : ((k : String) == k') = false := by
        simp only [beq_eq_false_iff_ne, ne_eq]
        exact fun hh => h hh.symm
      have h3 : (a.1 == k') = false := by rw [ha]; exact h2
      simp only [List.map_cons, h1, reduceIte, List.find?_cons, h2, h3]
      exact ih
    · have h1 : (a.1 == k) = false := by simp [ha]
      simp only [List.map_cons, h1, Bool.false_eq_true, not_false_iff, reduceIte,
        List.find?_cons]
      cases hkv' : (a.1 == k') with
      | true => rfl
      | false => exact ih

theorem find_append_single_self (m : TokenMap) (k v : String)
    (h : List.any m (fun kv => kv.1 == k) = false) :
    List.find? (fun kv => kv.1 == k) (m ++ [(k, v)]) = some (k, v) := by
  induction m with
  | nil => simp [List.find?]
  | cons a rest ih =>
    simp only [List.any_cons, Bool.or_eq_false_iff] at h
    simp only [List.cons_append, List.find?_cons, h.1]
    exact ih h.2

theorem find_append_single_other (m : TokenMap) (k v k' : String) (h : k' ≠ k) :
    List.find? (fun kv => kv.1 == k') (m ++ [(k, v)])
    = List.find? (fun kv => kv.1 == k') m := by
  induction m with
  | nil =>
    have h2 : ((k : String) == k') = false := by
      simp only [beq_eq_false_iff_ne, ne_eq]
      exact fun hh => h hh.symm
    simp [List.find?, h2]
  | cons a rest ih =>
    simp only [List.cons_append, List.find?_cons]
    cases hkv' : (a.1 == k') with
    | true => rfl
    | false => exact ih

theorem tmapFind_tmapAdd_self (m : TokenMap) (k v : String) :
    tmapFind (tmapAdd m k v) k = some v := by
  unfold tmapAdd tmapFind
  cases h : List.any m (fun kv => kv.1 == k) with
  | true =>
    simp only [reduceIte]
    rw [find_map_replace_self m k v h]
    rfl
  | false =>
    simp only [Bool.false_eq_true, not_false_iff, reduceIte]
    rw [find_append_single_self m k v h]
    rfl

theorem tmapFind_tmapAdd_other (m : TokenMap) (k v k' : String) (h : k' ≠ k) :
    tmapFind (tmapAdd m k v) k' = tmapFind m k' := by
  unfold tmapAdd tmapFind
  cases hc : List.any m (fun kv => kv.1 == k) with
  | true =>
    simp only [reduceIte]
    rw [find_map_replace_other m k v k' h]
  | false =>
    simp only [Bool.false_eq_true, not_false_iff, reduceIte]
    rw [find_append_single_other m k v k' h]

/-! ## C8: the package mode selects the authoritative folder -/

/-- C8: for every `FHoudiniPackageParams` and mode argument,
`UpdateOutputPathTokens` sets the `out_basepath` token from
`TempCookFolder` when the mode is `CookToTemp` or `CookToLevel`, and from
`BakeFolder` when the mode is `Bake`. -/
theorem updateOutputPathTokens_out_basepath (p : FHoudiniPackageParams)
    (mode : EPackageMode) (m : TokenMap) :
    tmapFind (p.UpdateOutputPathTokens mode m) "out_basepath"
      = some (FPathsGetPath
          (match mode with
           | EPackageMode.Bake => p.BakeFolder
           | _ => p.TempCookFolder)) := by
  cases mode <;>
    simp +decide only [FHoudiniPackageParams.UpdateOutputPathTokens,
      tmapFind_tmapAdd_other, tmapFind_tmapAdd_self]

/-! ## C7: tokens populated by `UpdateTokensFromParams` -/

/-- C7: `UpdateTokensFromParams` populates the `out`, `world`, `hda_name`
and `guid` tokens, but never adds the `pkg` token that its own doc comment
documents as "the path to the destination package". -/
theorem updateTokensFromParams_tokens (p : FHoudiniPackageParams)
    (worldPathName : String) (m : TokenMap) (h : tmapFind m "pkg" = none) :
    tmapFind (p.UpdateTokensFromParams worldPathName m) "out"
      = some (FPathsGetPath p.GetPackagePath) ∧
    tmapFind (p.UpdateTokensFromParams worldPathName m) "world"
      = some (FPathsGetPath worldPathName) ∧
    tmapFind (p.UpdateTokensFromParams worldPathName m) "hda_name"
      = some p.HoudiniAssetName ∧
    tmapFind (p.UpdateTokensFromParams worldPathName m) "guid"
      = some p.ComponentGUIDString ∧
    tmapFind (p.UpdateTokensFromParams worldPathName m) "pkg" = none := by
  cases hm : p.PackageMode <;>
    refine ⟨?_, ?_, ?_, ?_, ?_⟩ <;>
      simp +decide only [FHoudiniPackageParams.UpdateTokensFromParams,
        FHoudiniPackageParams.UpdateOutputPathTokens,
        tmapFind_tmapAdd_other, tmapFind_tmapAdd_self, h, hm]

/-- Witness for C7 at a concrete parameter set and an empty token map. -/
theorem updateTokensFromParams_tokens_witness :
    tmapFind (sampleParams.UpdateTokensFromParams "/Game/Maps/Level" []) "pkg"
      = none :=
  (updateTokensFromParams_tokens sampleParams "/Game/Maps/Level" [] rfl).2.2.2.2

/-! ## C1: deletion refused while references remain -/

/-- C1: whenever `GatherObjectReferencersForDeletion` runs and reports the
object as still referenced, `SafeDeleteSingleObject` returns `false` and
never calls `DeleteSingleObject`. -/
theorem safeDeleteSingleObject_refuses_when_referenced (o : UObjectModel)
    (hvalid : o.isValid = true) (hgather : o.gatherSucceeds = true)
    (href : o.isReferenced = true) :
    (SafeDeleteSingleObject o).bDeleted = false ∧
    (SafeDeleteSingleObject o).deleteSingleObjectCalled = false := by
  unfold SafeDeleteSingleObject
  simp [hvalid, hgather, href]

/-- Witness for C1: a valid, successfully gathered, still-referenced
object. -/
theorem safeDeleteSingleObject_refuses_when_referenced_witness :
    (SafeDeleteSingleObject ⟨1, true, true, true, false, true, 7, true, true⟩).bDeleted
      = false ∧
    (SafeDeleteSingleObject
      ⟨1, true, true, true, false, true, 7, true, true⟩).deleteSingleObjectCalled
      = false :=
  safeDeleteSingleObject_refuses_when_referenced _ rfl rfl rfl

/-! ## C6: actor query as a filter -/

theorem boxesIntersectLoop_eq_any (ab : FBox) :
    ∀ l : List FBox, boxesIntersectLoop ab l = List.any l (fun b => ab.intersect b)
  | [] => rfl
  | b :: rest => by
    simp only [boxesIntersectLoop, List.any_cons]
    cases h : ab.intersect b <;>
      simp [h, boxesIntersectLoop_eq_any ab rest]

theorem findActorsLoop_eq_filter (bboxes : List FBox) (ex : Option (List Nat)) :
    ∀ l : List ActorModel,
      findActorsLoop bboxes ex l
        = List.filter (fun a =>
            a.isValid && a.isChildOfActorType && !(isExcluded ex a)
            && !(fstringContains a.className "BP_Sky_Sphere")
            && List.any bboxes (fun b => a.bbox.intersect b)) l
  | [] => rfl
  | a :: rest => by
    simp only [findActorsLoop, boxesIntersectLoop_eq_any, List.filter_cons]
    cases hv : a.isValid <;> cases hc : a.isChildOfActorType <;>
      cases he : isExcluded ex a <;>
        cases hs : fstringContains a.className "BP_Sky_Sphere" <;>
          cases hi : List.any bboxes (fun b => a.bbox.intersect b) <;>
            simp [hv, hc, he, hs, hi, findActorsLoop_eq_filter bboxes ex rest]

/-- C6: for a valid world, `FindActorsOfClassInBounds` returns `true` and
outputs exactly the actors that are valid, of the requested class (or a
subclass), not excluded, whose class name does not contain
`BP_Sky_Sphere`, and whose component bounding box intersects some box of
the given set; for an invalid world it returns `false` (leaving the output
array untouched). -/
theorem findActorsOfClassInBounds_filter (world : WorldModel) (bboxes : List FBox)
    (ex : Option (List Nat)) (outActors : List ActorModel) :
    (world.isValid = true →
      FindActorsOfClassInBounds world bboxes ex outActors
        = (true, List.filter (fun a =>
            a.isValid && a.isChildOfActorType && !(isExcluded ex a)
            && !(fstringContains a.className "BP_Sky_Sphere")
            && List.any bboxes (fun b => a.bbox.intersect b)) world.actors)) ∧
    (world.isValid = false →
      FindActorsOfClassInBounds world bboxes ex outActors = (false, outActors)) := by
  constructor
  · intro h
    unfold FindActorsOfClassInBounds
    rw [findActorsLoop_eq_filter]
    simp [h]
  · intro h
    unfold FindActorsOfClassInBounds
    simp [h]

/-- Witness for C6: a world with a matching actor, an actor excluded by
id, an actor excluded by class name, and an actor whose bounds miss. -/
theorem findActorsOfClassInBounds_filter_witness :
    FindActorsOfClassInBounds
      ⟨true, [⟨1, true, true, "StaticMeshActor", ⟨5, 5, 5, 6, 6, 6⟩⟩,
              ⟨5, true, true, "StaticMeshActor", ⟨5, 5, 5, 6, 6, 6⟩⟩,
              ⟨2, true, true, "BP_Sky_Sphere_C", ⟨5, 5, 5, 6, 6, 6⟩⟩,
              ⟨3, true, true, "StaticMeshActor", ⟨20, 20, 20, 30, 30, 30⟩⟩]⟩
      [⟨0, 0, 0, 10, 10, 10⟩] (some [5]) []
      = (true, [⟨1, true, true, "StaticMeshActor", ⟨5, 5, 5, 6, 6, 6⟩⟩]) := by
  have h := (findActorsOfClassInBounds_filter
      ⟨true, [⟨1, true, true, "StaticMeshActor", ⟨5, 5, 5, 6, 6, 6⟩⟩,
              ⟨5, true, true, "StaticMeshActor", ⟨5, 5, 5, 6, 6, 6⟩⟩,
              ⟨2, true, true, "BP_Sky_Sphere_C", ⟨5, 5, 5, 6, 6, 6⟩⟩,
              ⟨3, true, true, "StaticMeshActor", ⟨20, 20, 20, 30, 30, 30⟩⟩]⟩
      [⟨0, 0, 0, 10, 10, 10⟩] (some [5]) []).1 rfl
  rw [h]
  decide

/-! ## Deletion loop invariants -/

theorem natListContains (l : List Nat) (x : Nat) : l.contains x = true ↔ x ∈ l := by
  simp

theorem delLoopOK_step (rest : List UObjectModel) (o : UObjectModel)
    (st stNext : DelState)
    (ih : DelLoopOK rest stNext (safeDeleteLoop rest stNext))
    (hp : stNext.processedObjects = st.processedObjects ++ [o.id])
    (hdup : o.id ∉ st.processedObjects)
    (hn : stNext.numDeleted ≤ st.numDeleted + 1)
    (he : stNext.events = st.events ++ [DelEvent.processed o.id])
    (hgc : stNext.bGarbageCollectionRequired = true →
      st.bGarbageCollectionRequired = true ∨ deletedInMemoryOnly o) :
    DelLoopOK (o :: rest) st (safeDeleteLoop rest stNext) := by
  obtain ⟨hfst, ⟨new, hpn, hnd, hmem, hnum⟩, ⟨evs, hev, hevp⟩, hgci⟩ := ih
  refine ⟨hfst, ⟨o.id :: new, ?_, ?_, ?_, ?_⟩,
    ⟨DelEvent.processed o.id :: evs, ?_, ?_⟩, ?_⟩
  · rw [hpn, hp, List.append_assoc]
    rfl
  · refine List.nodup_cons.mpr ⟨fun hmem' => ?_, hnd⟩
    exact (hmem _ hmem').2 (hp ▸ List.mem_append_right _ (by simp))
  · intro x hx
    rcases List.mem_cons.mp hx with h | h
    · subst h
      exact ⟨by simp, hdup⟩
    · obtain ⟨h1, h2⟩ := hmem x h
      refine ⟨by simp only [List.map_cons]; exact List.mem_cons_of_mem _ h1, fun hc => ?_⟩
      exact h2 (hp ▸ List.mem_append_left _ hc)
  · have := hnum
    simp only [List.length_cons]
    omega
  · rw [hev, he, List.append_assoc]
    rfl
  · intro e hee
    rcases List.mem_cons.mp hee with h | h
    · exact ⟨o.id, h⟩
    · exact hevp e h
  · intro hg
    rcases hgci hg with h | ⟨o', ho', hmo'⟩
    · rcases hgc h with h' | h'
      · exact Or.inl h'
      · exact Or.inr ⟨o, List.mem_cons_self o rest, h'⟩
    · exact Or.inr ⟨o', List.mem_cons_of_mem _ ho', hmo'⟩

theorem safeDeleteLoop_ok :
    ∀ (objs : List UObjectModel) (st : DelState),
      DelLoopOK objs st (safeDeleteLoop objs st)
  | [], st => by
    unfold safeDeleteLoop DelLoopOK
    exact ⟨rfl, ⟨[], by simp, List.nodup_nil, by simp, by simp⟩,
      ⟨[], by simp, by simp⟩, fun h => Or.inl h⟩
  | o :: rest, st => by
    cases hdup : st.processedObjects.contains o.id with
    | true =>
      have heq : safeDeleteLoop (o :: rest) st = safeDeleteLoop rest st := by
        simp only [safeDeleteLoop, hdup, reduceIte]
      rw [heq]
      obtain ⟨hfst, ⟨new, h1, h2, h3, h4⟩, hev, hgc⟩ := safeDeleteLoop_ok rest st
      refine ⟨hfst, ⟨new, h1, h2, fun x hx => ⟨?_, (h3 x hx).2⟩, h4⟩, hev, fun h => ?_⟩
      · simp only [List.map_cons]
        exact List.mem_cons_of_mem _ (h3 x hx).1
      · rcases hgc h with h' | ⟨o', a, b⟩
        · exact Or.inl h'
        · exact Or.inr ⟨o', List.mem_cons_of_mem _ a, b⟩
    | false =>
      have hdup' : o.id ∉ st.processedObjects := by
        intro hc
        rw [← natListContains] at hc
        rw [hc] at hdup
        cases hdup
      cases hv : o.isValid with
      | false =>
        simp only [safeDeleteLoop, hdup, hv]
        refine delLoopOK_step rest o st _ (safeDeleteLoop_ok rest _) rfl hdup'
          (Nat.le_succ _) rfl (fun h => Or.inl h)
      | true =>
        cases hr : (SafeDeleteSingleObject o).bDeleted with
        | false =>
          simp only [safeDeleteLoop, hdup, hv, hr]
          refine delLoopOK_step rest o st _ (safeDeleteLoop_ok rest _) rfl hdup'
            (Nat.le_succ _) rfl (fun h => Or.inl h)
        | true =>
          cases hm : (SafeDeleteSingleObject o).bOutPackageIsInMemoryOnly with
          | true =>
            simp only [safeDeleteLoop, hdup, hv, hr, hm]
            refine delLoopOK_step rest o st _ (safeDeleteLoop_ok rest _) rfl hdup'
              (Nat.le_refl _) rfl (fun _ => Or.inr ⟨hv, hr, hm⟩)
          | false =>
            simp only [safeDeleteLoop, hdup, hv, hr, hm]
            refine delLoopOK_step rest o st _ (safeDeleteLoop_ok rest _) rfl hdup'
              (Nat.le_refl _) rfl (fun h => Or.inl h)

theorem safeDeleteObjects_split (input : List UObjectModel) (outList : Option (List Nat))
    (p : List UObjectModel × DelState)
    (hp : safeDeleteLoop (List.reverse input) (initialDelState outList) = p) :
    (SafeDeleteObjects input outList).1 = p.1 ∧
    (SafeDeleteObjects input outList).2.numDeleted = p.2.numDeleted ∧
    (SafeDeleteObjects input outList).2.processedObjects = p.2.processedObjects ∧
    (SafeDeleteObjects input outList).2.outObjectsNotDeleted = p.2.outObjectsNotDeleted ∧
    ∃ endEvents, (SafeDeleteObjects input outList).2.events = p.2.events ++ endEvents ∧
      (endEvents = [] ∨
       (endEvents = [DelEvent.collectGarbage] ∧ p.2.bGarbageCollectionRequired = true ∧
         p.2.packagesToCleanUp = []) ∨
       (endEvents = [DelEvent.cleanupAfterSuccessfulDelete p.2.packagesToCleanUp] ∧
         p.2.packagesToCleanUp ≠ [])) := by
  unfold SafeDeleteObjects
  rw [hp]
  by_cases h1 : (p.2.bGarbageCollectionRequired && decide (p.2.packagesToCleanUp.length ≤ 0)) = true
  · have h1' := h1
    rw [Bool.and_eq_true, decide_eq_true_iff] at h1'
    have hnil : p.2.packagesToCleanUp = [] :=
      List.length_eq_zero.mp (Nat.le_zero.mp h1'.2)
    simp only [h1, reduceIte]
    split
    · next hlt =>
        exfalso
        revert hlt
        simp [hnil]
    · exact ⟨rfl, rfl, rfl, rfl, [DelEvent.collectGarbage], rfl,
        Or.inr (Or.inl ⟨rfl, h1'.1, hnil⟩)⟩
  · have h1f : (p.2.bGarbageCollectionRequired && decide (p.2.packagesToCleanUp.length ≤ 0)) = false :=
      Bool.not_eq_true _ ▸ Bool.of_not_eq_true h1
    simp only [h1f, Bool.false_eq_true, reduceIte]
    by_cases h2 : 0 < p.2.packagesToCleanUp.length
    · have hne : p.2.packagesToCleanUp ≠ [] := by
        intro hc
        rw [hc] at h2
        exact Nat.lt_irrefl 0 h2
      simp only [h2, reduceIte]
      exact ⟨True.intro, True.intro, True.intro, True.intro,
        [DelEvent.cleanupAfterSuccessfulDelete p.2.packagesToCleanUp],
        rfl, Or.inr (Or.inr ⟨rfl, hne⟩)⟩
    · simp only [h2, reduceIte]
      exact ⟨True.intro, True.intro, True.intro, True.intro, [], by simp, Or.inl rfl⟩

/-! ## C9: at most one deletion attempt per distinct object -/

/-- C9: `SafeDeleteObjects` processes each distinct object at most once
(the processed set is duplicate-free and drawn from the batch), the
returned count of deleted objects never exceeds the number of distinct
objects in the input, and on return the input array has been emptied. -/
theorem safeDeleteObjects_distinct_attempts (input : List UObjectModel)
    (outList : Option (List Nat)) :
    (SafeDeleteObjects input outList).1 = [] ∧
    List.Nodup (SafeDeleteObjects input outList).2.processedObjects ∧
    (∀ x ∈ (SafeDeleteObjects input outList).2.processedObjects,
      x ∈ List.map (fun o => o.id) input) ∧
    (SafeDeleteObjects input outList).2.numDeleted
      ≤ (List.dedup (List.map (fun o => o.id) input)).length := by
  obtain ⟨h1, h2, h3, _, _⟩ := safeDeleteObjects_split input outList _ rfl
  obtain ⟨hfst, ⟨new, hpn, hnd, hmem, hnum⟩, _, _⟩ :=
    safeDeleteLoop_ok (List.reverse input) (initialDelState outList)
  have hpn' : (safeDeleteLoop (List.reverse input) (initialDelState outList)).2.processedObjects
      = new := by
    rw [hpn]
    simp [initialDelState]
  have hmem' : ∀ x ∈ new, x ∈ List.map (fun o => o.id) input := by
    intro x hx
    obtain ⟨o, ho, hoe⟩ := List.mem_map.mp (hmem x hx).1
    exact List.mem_map.mpr ⟨o, List.mem_reverse.mp ho, hoe⟩
  refine ⟨by rw [h1]; exact hfst, by rw [h3, hpn']; exact hnd, ?_, ?_⟩
  · intro x hx
    rw [h3, hpn'] at hx
    exact hmem' x hx
  · rw [h2]
    have hsub : new ⊆ List.dedup (List.map (fun o => o.id) input) := by
      intro x hx
      rw [List.mem_dedup]
      exact hmem' x hx
    have hle : new.length ≤ (List.dedup (List.map (fun o => o.id) input)).length :=
      (hnd.subperm hsub).length_le
    have : (safeDeleteLoop (List.reverse input) (initialDelState outList)).2.numDeleted
        ≤ 0 + new.length := hnum
    omega

/-! ## C2: collection passes deferred to the end of the batch -/

/-- C2: the event trace of `SafeDeleteObjects` is the object-processing
events followed by at most one collection pass; `CollectGarbage` occurs
only when some object of the batch was deleted with an in-memory-only
package, and then no `CleanupAfterSuccessfulDelete` call is made. -/
theorem safeDeleteObjects_defers_collection (input : List UObjectModel)
    (outList : Option (List Nat)) :
    (∃ A B, (SafeDeleteObjects input outList).2.events = A ++ B ∧
      (∀ e ∈ A, e.isCollectionEvent = false) ∧
      (∀ e ∈ B, e.isCollectionEvent = true) ∧
      B.length ≤ 1) ∧
    (DelEvent.collectGarbage ∈ (SafeDeleteObjects input outList).2.events →
      (∃ o ∈ input, deletedInMemoryOnly o) ∧
      ∀ pkgs, DelEvent.cleanupAfterSuccessfulDelete pkgs
        ∉ (SafeDeleteObjects input outList).2.events) := by
  obtain ⟨-, -, -, -, endEvents, hev, hcases⟩ := safeDeleteObjects_split input outList _ rfl
  obtain ⟨-, -, ⟨evs, hlev, hevp⟩, hgc⟩ :=
    safeDeleteLoop_ok (List.reverse input) (initialDelState outList)
  have hlev' : (safeDeleteLoop (List.reverse input) (initialDelState outList)).2.events = evs := by
    rw [hlev]
    simp [initialDelState]
  have hAproc : ∀ e ∈ evs, e.isCollectionEvent = false := by
    intro e he
    obtain ⟨i, hi⟩ := hevp e he
    subst hi
    rfl
  constructor
  · refine ⟨evs, endEvents, by rw [hev, hlev'], hAproc, ?_, ?_⟩
    · intro e he
      rcases hcases with h | ⟨h, -, -⟩ | ⟨h, -⟩ <;> subst h <;> simp at he
      · subst he
        rfl
      · subst he
        rfl
    · rcases hcases with h | ⟨h, -, -⟩ | ⟨h, -⟩ <;> subst h <;> simp
  · intro hin
    rw [hev, hlev'] at hin
    rcases List.mem_append.mp hin with h | h
    · have := hAproc _ h
      simp [DelEvent.isCollectionEvent] at this
    · have hb : endEvents = [DelEvent.collectGarbage] ∧
          (safeDeleteLoop (List.reverse input) (initialDelState outList)).2.bGarbageCollectionRequired = true := by
        rcases hcases with hc | ⟨hc, hc2, -⟩ | ⟨hc, -⟩
        · subst hc
          simp at h
        · exact ⟨hc, hc2⟩
        · subst hc
          simp at h
      obtain ⟨hbe, hbg⟩ := hb
      have hmem : ∃ o ∈ input, deletedInMemoryOnly o := by
        rcases hgc hbg with hinit | ⟨o', ho', hmo'⟩
        · simp [initialDelState] at hinit
        · exact ⟨o', List.mem_reverse.mp ho', hmo'⟩
      refine ⟨hmem, fun pkgs hc => ?_⟩
      rw [hev, hlev', hbe] at hc
      rcases List.mem_append.mp hc with h' | h'
      · have := hAproc _ h'
        simp [DelEvent.isCollectionEvent] at this
      · simp at h'

/-! ## C5: reporting of objects that were not deleted -/

/-- C5 counterexample: an invalid (null / pending-kill) object in the batch
is not deleted, yet it is skipped before the report step and never appended
to `OutObjectsNotDeleted`: with batch `[o]` for an invalid `o` and an empty
non-null output list, nothing is deleted and the output list stays empty. -/
theorem safeDeleteObjects_reports_cex :
    (SafeDeleteObjects [⟨1, false, true, false, false, true, 7, true, true⟩]
      (some [])).2.numDeleted = 0 ∧
    (SafeDeleteObjects [⟨1, false, true, false, false, true, 7, true, true⟩]
      (some [])).2.outObjectsNotDeleted = some [] :=
  ⟨rfl, rfl⟩

theorem safeDeleteLoop_notDeleted :
    ∀ (objs : List UObjectModel) (st : DelState) (X : List Nat),
      st.outObjectsNotDeleted = some X →
      (∀ o ∈ objs, ∀ o2 ∈ objs, o.id = o2.id → o = o2) →
      ∃ R, (safeDeleteLoop objs st).2.outObjectsNotDeleted = some (X ++ R) ∧
        List.Nodup R ∧
        (∀ x ∈ R, x ∉ st.processedObjects) ∧
        (∀ x ∈ R, ∃ o, o ∈ objs ∧ o.id = x ∧ o.isValid = true ∧
          (SafeDeleteSingleObject o).bDeleted = false) ∧
        (∀ o ∈ objs, o.isValid = true → (SafeDeleteSingleObject o).bDeleted = false →
          o.id ∉ st.processedObjects → o.id ∈ R)
  | [], st, X, hX, _ => by
    refine ⟨[], ?_, List.nodup_nil, by simp, by simp, by simp⟩
    rw [List.append_nil]
    exact hX
  | o :: rest, st, X, hX, hcons => by
    have hcons' : ∀ a ∈ rest, ∀ b ∈ rest, a.id = b.id → a = b := fun a ha b hb =>
      hcons a (List.mem_cons_of_mem _ ha) b (List.mem_cons_of_mem _ hb)
    cases hdup : st.processedObjects.contains o.id with
    | true =>
      have heq : safeDeleteLoop (o :: rest) st = safeDeleteLoop rest st := by
        simp only [safeDeleteLoop, hdup, reduceIte]
      rw [heq]
      obtain ⟨R, h1, h2, h3, h4, h5⟩ := safeDeleteLoop_notDeleted rest st X hX hcons'
      refine ⟨R, h1, h2, h3,
        fun x hx => (h4 x hx).imp (fun o' h => ⟨List.mem_cons_of_mem _ h.1, h.2⟩),
        fun o' ho' hval hdel hpr => ?_⟩
      rcases List.mem_cons.mp ho' with h | h
      · subst h
        exact absurd ((natListContains _ _).mp hdup) hpr
      · exact h5 o' h hval hdel hpr
    | false =>
      have hdup' : o.id ∉ st.processedObjects := by
        intro hc
        rw [← natListContains] at hc
        rw [hc] at hdup
        cases hdup
      have hne_of_mem : ∀ o' ∈ rest, o'.id = o.id → o' = o := fun o' h he =>
        hcons o' (List.mem_cons_of_mem _ h) o (List.mem_cons_self o rest) he
      cases hv : o.isValid with
      | false =>
        simp only [safeDeleteLoop, hdup, hv, reduceIte, Bool.not_false, Bool.not_true,
          Bool.false_eq_true, ite_false, ite_true]
        obtain ⟨R, h1, h2, h3, h4, h5⟩ := safeDeleteLoop_notDeleted rest
          { st with processedObjects := st.processedObjects ++ [o.id],
                    events := st.events ++ [DelEvent.processed o.id] } X hX hcons'
        refine ⟨R, h1, h2, fun x hx => ?_, 
          fun x hx => (h4 x hx).imp (fun o' h => ⟨List.mem_cons_of_mem _ h.1, h.2⟩),
          fun o' ho' hval hdel hpr => ?_⟩
        · exact fun hc => h3 x hx (List.mem_append_left _ hc)
        · rcases List.mem_cons.mp ho' with h | h
          · subst h
            rw [hv] at hval
            cases hval
          · refine h5 o' h hval hdel (fun hc => ?_)
            rcases List.mem_append.mp hc with hc' | hc'
            · exact hpr hc'
            · have : o'.id = o.id := by simpa using hc'
              have heqo : o' = o := hne_of_mem o' h this
              rw [heqo, hv] at hval
              cases hval
      | true =>
        cases hr : (SafeDeleteSingleObject o).bDeleted with
        | true =>
          have key : ∀ stN : DelState,
              stN.outObjectsNotDeleted = some X →
              stN.processedObjects = st.processedObjects ++ [o.id] →
              ∃ R, (safeDeleteLoop rest stN).2.outObjectsNotDeleted = some (X ++ R) ∧
                List.Nodup R ∧
                (∀ x ∈ R, x ∉ st.processedObjects) ∧
                (∀ x ∈ R, ∃ o2, o2 ∈ o :: rest ∧ o2.id = x ∧ o2.isValid = true ∧
                  (SafeDeleteSingleObject o2).bDeleted = false) ∧
                (∀ o2 ∈ o :: rest, o2.isValid = true →
                  (SafeDeleteSingleObject o2).bDeleted = false →
                  o2.id ∉ st.processedObjects → o2.id ∈ R) := by
            intro stN hon hpn
            obtain ⟨R, h1, h2, h3, h4, h5⟩ := safeDeleteLoop_notDeleted rest stN X hon hcons'
            refine ⟨R, h1, h2, fun x hx => ?_,
              fun x hx => (h4 x hx).imp (fun o' h => ⟨List.mem_cons_of_mem _ h.1, h.2⟩),
              fun o' ho' hval hdel hpr => ?_⟩
            · exact fun hc => h3 x hx (hpn ▸ List.mem_append_left _ hc)
            · rcases List.mem_cons.mp ho' with h | h
              · subst h
                rw [hr] at hdel
                cases hdel
              · refine h5 o' h hval hdel (fun hc => ?_)
                rw [hpn] at hc
                rcases List.mem_append.mp hc with hc' | hc'
                · exact hpr hc'
                · have : o'.id = o.id := by simpa using hc'
                  have heqo : o' = o := hne_of_mem o' h this
                  rw [heqo, hr] at hdel
                  cases hdel
          cases hm : (SafeDeleteSingleObject o).bOutPackageIsInMemoryOnly with
          | true =>
            simp only [safeDeleteLoop, hdup, hv, hr, hm, reduceIte, Bool.not_false,
              Bool.not_true, Bool.false_eq_true, ite_false, ite_true]
            exact key _ hX rfl
          | false =>
            simp only [safeDeleteLoop, hdup, hv, hr, hm, reduceIte, Bool.not_false,
              Bool.not_true, Bool.false_eq_true, ite_false, ite_true]
            exact key _ hX rfl
        | false =>
          simp only [safeDeleteLoop, hdup, hv, hr, reduceIte, Bool.not_false, Bool.not_true,
            Bool.false_eq_true, ite_false, ite_true]
          obtain ⟨R', h1, h2, h3, h4, h5⟩ := safeDeleteLoop_notDeleted rest
            { st with processedObjects := st.processedObjects ++ [o.id],
                      outObjectsNotDeleted :=
                        Option.map (fun l => l ++ [o.id]) st.outObjectsNotDeleted,
                      events := st.events ++ [DelEvent.processed o.id] }
            (X ++ [o.id]) (by rw [hX]; rfl) hcons'
          refine ⟨o.id :: R', ?_, ?_, ?_, ?_, ?_⟩
          · rw [h1, List.append_assoc]
            rfl
          · refine List.nodup_cons.mpr ⟨fun hmem' => ?_, h2⟩
            exact h3 _ hmem' (List.mem_append_right _ (by simp))
          · intro x hx
            rcases List.mem_cons.mp hx with h | h
            · subst h
              exact hdup'
            · exact fun hc => h3 x h (List.mem_append_left _ hc)
          · intro x hx
            rcases List.mem_cons.mp hx with h | h
            · subst h
              exact ⟨o, List.mem_cons_self o rest, rfl, hv, hr⟩
            · exact (h4 x h).imp (fun o' hh => ⟨List.mem_cons_of_mem _ hh.1, hh.2⟩)
          · intro o' ho' hval hdel hpr
            rcases List.mem_cons.mp ho' with h | h
            · subst h
              exact List.mem_cons_self _ _
            · by_cases hid : o'.id = o.id
              · rw [hid]
                exact List.mem_cons_self _ _
              · refine List.mem_cons_of_mem _ (h5 o' h hval hdel (fun hc => ?_))
                rcases List.mem_append.mp hc with hc' | hc'
                · exact hpr hc'
                · exact hid (by simpa using hc')

/-- C5 (amended): with a non-null `OutObjectsNotDeleted` list, every
distinct valid object of the batch that is not deleted is appended exactly
once to the list; invalid objects and duplicate occurrences are skipped
without being reported (and the embedding is a total function, so no
exception is raised). -/
theorem safeDeleteObjects_reports_not_deleted (input : List UObjectModel)
    (X0 : List Nat)
    (hcons : ∀ o ∈ input, ∀ o2 ∈ input, o.id = o2.id → o = o2) :
    ∃ R, (SafeDeleteObjects input (some X0)).2.outObjectsNotDeleted = some (X0 ++ R) ∧
      List.Nodup R ∧
      (∀ x ∈ R, ∃ o, o ∈ input ∧ o.id = x ∧ o.isValid = true ∧
        (SafeDeleteSingleObject o).bDeleted = false) ∧
      (∀ o ∈ input, o.isValid = true → (SafeDeleteSingleObject o).bDeleted = false →
        o.id ∈ R) := by
  obtain ⟨-, -, -, hout, -⟩ := safeDeleteObjects_split input (some X0) _ rfl
  have hcons' : ∀ o ∈ List.reverse input, ∀ o2 ∈ List.reverse input, o.id = o2.id → o = o2 :=
    fun a ha b hb => hcons a (List.mem_reverse.mp ha) b (List.mem_reverse.mp hb)
  obtain ⟨R, h1, h2, h3, h4, h5⟩ := safeDeleteLoop_notDeleted (List.reverse input)
    (initialDelState (some X0)) X0 rfl hcons'
  refine ⟨R, by rw [hout]; exact h1, h2, ?_, ?_⟩
  · intro x hx
    obtain ⟨o, ho, hrest⟩ := h4 x hx
    exact ⟨o, List.mem_reverse.mp ho, hrest⟩
  · intro o ho hval hdel
    exact h5 o (List.mem_reverse.mpr ho) hval hdel (by simp [initialDelState])

/-- Witness for C5 (amended): a batch with one valid object whose deletion
fails because it is still referenced. -/
theorem safeDeleteObjects_reports_not_deleted_witness :
    ∃ R, (SafeDeleteObjects [⟨4, true, true, true, false, true, 9, true, true⟩]
        (some [])).2.outObjectsNotDeleted = some ([] ++ R) ∧
      List.Nodup R ∧
      (∀ x ∈ R, ∃ o, o ∈ [(⟨4, true, true, true, false, true, 9, true, true⟩ : UObjectModel)] ∧
        o.id = x ∧ o.isValid = true ∧ (SafeDeleteSingleObject o).bDeleted = false) ∧
      (∀ o ∈ [(⟨4, true, true, true, false, true, 9, true, true⟩ : UObjectModel)],
        o.isValid = true → (SafeDeleteSingleObject o).bDeleted = false → o.id ∈ R) :=
  safeDeleteObjects_reports_not_deleted _ [] (by decide)

/-! ## C4: archetype-instance propagation -/

theorem archetypeChainCheck_identical (w : ComponentWorld) (vals : CompValues)
    (p : String) (target inst : Nat)
    (hident : (vals inst p == vals target p) = true)
    (hstart : ∃ g, archetypeChainCheck w vals p target inst (w.archetype inst) g = some true) :
    ∀ (f2 c : Nat),
      (∃ g, archetypeChainCheck w vals p target inst c g = some true) →
      ∀ l, archetypeChainToTarget w target c f2 = some l →
        ∀ x ∈ l, (vals x p == vals target p) = true := by
  intro f2
  induction f2 with
  | zero =>
    intro c _ l hl
    simp only [archetypeChainToTarget] at hl
    exact Option.noConfusion hl
  | succ f ih =>
    intro c hc l hl
    simp only [archetypeChainToTarget] at hl
    by_cases hct : c = target
    · rw [if_pos hct] at hl
      injection hl with hl'
      subst hl'
      intro x hx
      cases hx
    · rw [if_neg hct] at hl
      obtain ⟨l', hl', hle⟩ : ∃ l', archetypeChainToTarget w target (w.archetype c) f = some l'
          ∧ l = c :: l' := by
        cases hrec : archetypeChainToTarget w target (w.archetype c) f with
        | none =>
          rw [hrec] at hl
          simp at hl
        | some l2 =>
          rw [hrec] at hl
          simp only [Option.map_some'] at hl
          injection hl with h
          exact ⟨l2, rfl, h.symm⟩
      subst hle
      obtain ⟨g, hg⟩ := hc
      cases g with
      | zero =>
        simp only [archetypeChainCheck] at hg
        exact Option.noConfusion hg
      | succ g2 =>
        simp only [archetypeChainCheck] at hg
        by_cases hci : c = inst
        · have hcid : (vals c p == vals target p) = true := by
            rw [hci]
            exact hident
          refine fun x hx => ?_
          rcases List.mem_cons.mp hx with h | h
          · rw [h]
            exact hcid
          · refine ih (w.archetype c) ?_ l' hl' x h
            rw [hci]
            exact hstart
        · rw [if_neg hci] at hg
          cases hcd : (vals c p == vals target p) with
          | false =>
            rw [hcd] at hg
            simp at hg
          | true =>
            rw [hcd] at hg
            simp only [Bool.not_true, Bool.false_eq_true, ite_false] at hg
            refine fun x hx => ?_
            rcases List.mem_cons.mp hx with h | h
            · rw [h]
              exact hcd
            · exact ih (w.archetype c) ⟨g2, hg⟩ l' hl' x h

theorem propagateToInstance_shape (w : ComponentWorld) (target : Nat) (p : String)
    (st : CopyState) (inst : Nat) :
    ∃ fadd radd madd,
      (propagateToInstance w target p st inst).transactionalFlagged
        = st.transactionalFlagged ++ fadd ∧
      (propagateToInstance w target p st inst).recordedForUndo
        = st.recordedForUndo ++ radd ∧
      (propagateToInstance w target p st inst).modifiedObjects
        = st.modifiedObjects ++ madd ∧
      (∀ x ∈ fadd, x = inst ∧ w.createdByConstructionScript inst = false) ∧
      (∀ j, EditorObj.comp j ∈ madd →
        j = inst ∧ w.createdByConstructionScript inst = false ∧
        inst ∈ fadd ∧ EditorObj.comp inst ∈ radd) ∧
      (EditorObj.comp inst ∉ st.modifiedObjects →
        w.createdByConstructionScript inst = false →
        inst ∈ fadd ∧ EditorObj.comp inst ∈ radd) := by
  unfold propagateToInstance
  by_cases h1 : EditorObj.comp inst ∈ st.modifiedObjects
  · by_cases h5 : w.isRegistered inst = true <;>
      refine ⟨[], [], [], ?_⟩ <;>
        simp [h1, h5]
  · cases h2 : w.createdByConstructionScript inst with
    | true =>
      cases howner : w.owner inst with
      | none =>
        by_cases h5 : w.isRegistered inst = true <;>
          refine ⟨[], [], [], ?_⟩ <;>
            simp [h1, h2, howner, h5]
      | some ow =>
        by_cases h4 : EditorObj.actor ow ∈ st.modifiedObjects
        · by_cases h5 : w.isRegistered inst = true <;>
            refine ⟨[], [], [], ?_⟩ <;>
              simp [h1, h2, howner, h4, h5]
        · by_cases h5 : w.isRegistered inst = true <;>
            refine ⟨[], [EditorObj.actor ow], [EditorObj.actor ow], ?_⟩ <;>
              simp [h1, h2, howner, h4, h5]
    | false =>
      cases howner : w.owner inst with
      | none =>
        by_cases h5 : w.isRegistered inst = true <;>
          refine ⟨[inst], [EditorObj.comp inst], [EditorObj.comp inst], ?_⟩ <;>
            simp [h1, h2, howner, h5]
      | some ow =>
        by_cases h4 : EditorObj.actor ow ∈ st.modifiedObjects ++ [EditorObj.comp inst]
        · by_cases h5 : w.isRegistered inst = true <;>
            refine ⟨[inst], [EditorObj.comp inst], [EditorObj.comp inst], ?_⟩ <;>
              simp [h1, h2, howner, h4, h5]
        · by_cases h5 : w.isRegistered inst = true <;>
            refine ⟨[inst], [EditorObj.comp inst, EditorObj.actor ow],
                [EditorObj.comp inst, EditorObj.actor ow], ?_⟩ <;>
              simp [h1, h2, howner, h4, h5]

theorem propagateToInstances_shape (w : ComponentWorld) (target : Nat) (p : String) :
    ∀ (insts : List Nat) (st : CopyState),
      ∃ fadd radd,
        (propagateToInstances w target p insts st).transactionalFlagged
          = st.transactionalFlagged ++ fadd ∧
        (propagateToInstances w target p insts st).recordedForUndo
          = st.recordedForUndo ++ radd ∧
        (∀ x ∈ fadd, x ∈ insts ∧ w.createdByConstructionScript x = false)
  | [], st =>
    ⟨[], [], by simp [propagateToInstances], by simp [propagateToInstances], by simp⟩
  | i :: rest, st => by
    obtain ⟨f1, r1, m1, hf1, hr1, hm1, hfs1, hms1, hmark1⟩ :=
      propagateToInstance_shape w target p st i
    obtain ⟨f2, r2, hf2, hr2, hfs2⟩ :=
      propagateToInstances_shape w target p rest (propagateToInstance w target p st i)
    refine ⟨f1 ++ f2, r1 ++ r2, ?_, ?_, ?_⟩
    · simp only [propagateToInstances, List.foldl_cons] at hf2 ⊢
      rw [hf2, hf1, List.append_assoc]
    · simp only [propagateToInstances, List.foldl_cons] at hr2 ⊢
      rw [hr2, hr1, List.append_assoc]
    · intro x hx
      rcases List.mem_append.mp hx with h | h
      · obtain ⟨hxe, hxc⟩ := hfs1 x h
        subst hxe
        exact ⟨List.mem_cons_self _ _, hxc⟩
      · obtain ⟨hxe, hxc⟩ := hfs2 x h
        exact ⟨List.mem_cons_of_mem _ hxe, hxc⟩

theorem propagateToInstances_marks (w : ComponentWorld) (target : Nat) (p : String) :
    ∀ (insts : List Nat) (st : CopyState),
      (∀ j, w.createdByConstructionScript j = false →
        EditorObj.comp j ∈ st.modifiedObjects →
        j ∈ st.transactionalFlagged ∧ EditorObj.comp j ∈ st.recordedForUndo) →
      ∀ inst ∈ insts, w.createdByConstructionScript inst = false →
        inst ∈ (propagateToInstances w target p insts st).transactionalFlagged ∧
        EditorObj.comp inst ∈ (propagateToInstances w target p insts st).recordedForUndo
  | [], st => by
    intro _ inst h
    cases h
  | i :: rest, st => by
    intro hinv inst hmem hcs
    obtain ⟨f1, r1, m1, hf1, hr1, hm1, hfs1, hms1, hmark1⟩ :=
      propagateToInstance_shape w target p st i
    have hinv' : ∀ j, w.createdByConstructionScript j = false →
        EditorObj.comp j ∈ (propagateToInstance w target p st i).modifiedObjects →
        j ∈ (propagateToInstance w target p st i).transactionalFlagged ∧
        EditorObj.comp j ∈ (propagateToInstance w target p st i).recordedForUndo := by
      intro j hj hjm
      rw [hm1] at hjm
      rcases List.mem_append.mp hjm with h | h
      · obtain ⟨hjf, hjr⟩ := hinv j hj h
        exact ⟨by rw [hf1]; exact List.mem_append_left _ hjf,
          by rw [hr1]; exact List.mem_append_left _ hjr⟩
      · obtain ⟨hji, -, hfi, hri⟩ := hms1 j h
        subst hji
        exact ⟨by rw [hf1]; exact List.mem_append_right _ hfi,
          by rw [hr1]; exact List.mem_append_right _ hri⟩
    rcases List.mem_cons.mp hmem with h | h
    · subst h
      have hstep : inst ∈ (propagateToInstance w target p st inst).transactionalFlagged ∧
          EditorObj.comp inst ∈ (propagateToInstance w target p st inst).recordedForUndo := by
        by_cases hm : EditorObj.comp inst ∈ st.modifiedObjects
        · obtain ⟨a, b⟩ := hinv inst hcs hm
          exact ⟨by rw [hf1]; exact List.mem_append_left _ a,
            by rw [hr1]; exact List.mem_append_left _ b⟩
        · obtain ⟨a, b⟩ := hmark1 hm hcs
          exact ⟨by rw [hf1]; exact List.mem_append_right _ a,
            by rw [hr1]; exact List.mem_append_right _ b⟩
      obtain ⟨f2, r2, hf2, hr2, -⟩ :=
        propagateToInstances_shape w target p rest (propagateToInstance w target p st inst)
      constructor
      · simp only [propagateToInstances, List.foldl_cons] at hf2 ⊢
        rw [hf2]
        exact List.mem_append_left _ hstep.1
      · simp only [propagateToInstances, List.foldl_cons] at hr2 ⊢
        rw [hr2]
        exact List.mem_append_left _ hstep.2
    · have := propagateToInstances_marks w target p rest
        (propagateToInstance w target p st i) hinv' inst h hcs
      simpa only [propagateToInstances, List.foldl_cons] using this

/-- C4: when `PropagateChangesToArchetypeInstances` is set, a copied
property is propagated to an archetype instance only if the instance's
value matches the target's pre-copy value and every archetype on the chain
between the instance and the target matches as well; and in the
propagation loop every instance not created by a construction script is
flagged `RF_Transactional` and recorded for undo, while
construction-script instances are never flagged by it. -/
theorem copyComponentProperties_propagation (w : ComponentWorld) (vals : CompValues)
    (p : String) (target inst : Nat) (fuel : Nat)
    (hdec : shouldPropagateToInstance w vals p target inst fuel = some true) :
    (vals inst p == vals target p) = true ∧
    (∀ f2 l, archetypeChainToTarget w target (w.archetype inst) f2 = some l →
      ∀ c ∈ l, (vals c p == vals target p) = true) ∧
    (∀ (insts : List Nat) (st : CopyState),
      (∀ j, w.createdByConstructionScript j = false →
        EditorObj.comp j ∈ st.modifiedObjects →
        j ∈ st.transactionalFlagged ∧ EditorObj.comp j ∈ st.recordedForUndo) →
      inst ∈ insts →
      (w.createdByConstructionScript inst = false →
        inst ∈ (propagateToInstances w target p insts st).transactionalFlagged ∧
        EditorObj.comp inst ∈ (propagateToInstances w target p insts st).recordedForUndo) ∧
      (w.createdByConstructionScript inst = true →
        inst ∉ st.transactionalFlagged →
        inst ∉ (propagateToInstances w target p insts st).transactionalFlagged)) := by
  have hident : (vals inst p == vals target p) = true := by
    by_contra hno
    rw [Bool.not_eq_true] at hno
    unfold shouldPropagateToInstance at hdec
    rw [hno] at hdec
    simp at hdec
  refine ⟨hident, ?_, ?_⟩
  · by_cases harch : w.archetype inst = target
    · intro f2 l hl
      rw [harch] at hl
      cases f2 with
      | zero =>
        simp only [archetypeChainToTarget] at hl
        exact Option.noConfusion hl
      | succ f =>
        simp [archetypeChainToTarget] at hl
        subst hl
        simp
    · have hwalk : archetypeChainCheck w vals p target inst (w.archetype inst) fuel
          = some true := by
        unfold shouldPropagateToInstance at hdec
        rw [hident] at hdec
        rw [if_pos rfl, if_pos harch] at hdec
        exact hdec
      exact fun f2 l hl => archetypeChainCheck_identical w vals p target inst hident
        ⟨fuel, hwalk⟩ f2 (w.archetype inst) ⟨fuel, hwalk⟩ l hl
  · intro insts st hinv hmem
    constructor
    · intro hcs
      exact propagateToInstances_marks w target p insts st hinv inst hmem hcs
    · intro hcs hflag hc
      obtain ⟨fadd, radd, hf, hr, hsrc⟩ := propagateToInstances_shape w target p insts st
      rw [hf] at hc
      rcases List.mem_append.mp hc with h | h
      · exact hflag h
      · have := (hsrc inst h).2
        rw [this] at hcs
        exact Bool.noConfusion hcs

/-- Witness for C4: a direct archetype instance of the target with a
matching value, not created by a construction script. -/
theorem copyComponentProperties_propagation_witness :
    ((fun (v : CompValues) (w : ComponentWorld) =>
      (v 2 "prop" == v 1 "prop") = true ∧
      (∀ f2 l, archetypeChainToTarget w 1 (w.archetype 2) f2 = some l →
        ∀ c ∈ l, (v c "prop" == v 1 "prop") = true) ∧
      (∀ (insts : List Nat) (st : CopyState),
        (∀ j, w.createdByConstructionScript j = false →
          EditorObj.comp j ∈ st.modifiedObjects →
          j ∈ st.transactionalFlagged ∧ EditorObj.comp j ∈ st.recordedForUndo) →
        2 ∈ insts →
        (w.createdByConstructionScript 2 = false →
          2 ∈ (propagateToInstances w 1 "prop" insts st).transactionalFlagged ∧
          EditorObj.comp 2 ∈ (propagateToInstances w 1 "prop" insts st).recordedForUndo) ∧
        (w.createdByConstructionScript 2 = true →
          2 ∉ st.transactionalFlagged →
          2 ∉ (propagateToInstances w 1 "prop" insts st).transactionalFlagged)))
      (fun _ _ => 5)
      ⟨fun _ => 1, fun _ => false, fun _ => false, fun _ => none, [2]⟩) :=
  copyComponentProperties_propagation
    ⟨fun _ => 1, fun _ => false, fun _ => false, fun _ => none, [2]⟩
    (fun _ _ => 5) "prop" 1 2 0 rfl

/-! ## Value tracking through the copy loop -/

theorem copySingleProperty_ne (v : CompValues) (s d : Nat) (p : String)
    (c : Nat) (q : String) (hq : q ≠ p) :
    copySingleProperty v s d p c q = v c q := by
  unfold copySingleProperty
  simp [hq]

theorem copySingleProperty_other (v : CompValues) (s d : Nat) (p : String)
    (c : Nat) (q : String) (hc : c ≠ d) :
    copySingleProperty v s d p c q = v c q := by
  unfold copySingleProperty
  simp [hc]

theorem copySingleProperty_self (v : CompValues) (s d : Nat) (p : String) :
    copySingleProperty v s d p d p = v s p := by
  unfold copySingleProperty
  simp

theorem propagateToInstance_vals (w : ComponentWorld) (target : Nat) (p : String)
    (st : CopyState) (inst : Nat) :
    (propagateToInstance w target p st inst).vals
      = copySingleProperty st.vals target inst p := by
  unfold propagateToInstance
  by_cases h1 : EditorObj.comp inst ∈ st.modifiedObjects
  · by_cases h5 : w.isRegistered inst = true <;> simp [h1, h5]
  · cases h2 : w.createdByConstructionScript inst with
    | true =>
      cases howner : w.owner inst with
      | none => by_cases h5 : w.isRegistered inst = true <;> simp [h1, h2, howner, h5]
      | some ow =>
        by_cases h4 : EditorObj.actor ow ∈ st.modifiedObjects <;>
          by_cases h5 : w.isRegistered inst = true <;> simp [h1, h2, howner, h4, h5]
    | false =>
      cases howner : w.owner inst with
      | none => by_cases h5 : w.isRegistered inst = true <;> simp [h1, h2, howner, h5]
      | some ow =>
        by_cases h4 : EditorObj.actor ow ∈ st.modifiedObjects ++ [EditorObj.comp inst] <;>
          by_cases h5 : w.isRegistered inst = true <;> simp [h1, h2, howner, h4, h5]

theorem propagateToInstances_vals (w : ComponentWorld) (target : Nat) (p : String) :
    ∀ (insts : List Nat) (st : CopyState) (c : Nat) (q : String),
      (q ≠ p ∨ c ∉ insts) →
      (propagateToInstances w target p insts st).vals c q = st.vals c q
  | [], _, _, _, _ => rfl
  | i :: rest, st, c, q, h => by
    have hstep : (propagateToInstance w target p st i).vals c q = st.vals c q := by
      rw [propagateToInstance_vals]
      rcases h with h | h
      · exact copySingleProperty_ne _ _ _ _ _ _ h
      · exact copySingleProperty_other _ _ _ _ _ _
          (fun hc => h (hc ▸ List.mem_cons_self i rest))
    have hrest : (q ≠ p ∨ c ∉ rest) := by
      rcases h with h | h
      · exact Or.inl h
      · exact Or.inr (fun hc => h (List.mem_cons_of_mem _ hc))
    have := propagateToInstances_vals w target p rest
      (propagateToInstance w target p st i) c q hrest
    simp only [propagateToInstances, List.foldl_cons] at this ⊢
    rw [this, hstep]

theorem processProperty_skip (w : ComponentWorld) (opts : FCopyOptions) (src tgt : Nat)
    (ucs : List String) (instances : List Nat) (fuel : Nat)
    (st : CopyState) (n : Nat) (copied : List String) (p : PropModel)
    (hsc : shouldCopyProperty opts st.vals src tgt ucs p = false) :
    processProperty w opts src tgt ucs instances fuel (st, n, copied) p
      = some (st, n, copied) := by
  unfold shouldCopyProperty at hsc
  unfold processProperty
  cases hc1 : (!p.transient && !(st.vals src p.name == st.vals tgt p.name)
      && !p.instancedReference && !(List.contains ucs p.name)
      && !(isTransformPropertyName p.name)) with
  | false =>
    simp only [hc1, Bool.false_eq_true, ite_false]
  | true =>
    cases hc2 : ((!opts.onlyCopyEditOrInterpProperties || p.editOrInterp)
        && (!opts.skipInstanceOnlyProperties || !p.disableEditOnTemplate)) with
    | false =>
      simp only [hc1, hc2, ite_true, Bool.false_eq_true, ite_false]
    | true =>
      cases hc3 : opts.canCopyProperty p.name with
      | false =>
        simp only [hc1, hc2, hc3, ite_true, Bool.not_false, ite_false, Bool.false_eq_true]
      | true =>
        rw [hc1, hc2, hc3] at hsc
        simp at hsc

theorem processProperty_preview (w : ComponentWorld) (opts : FCopyOptions) (src tgt : Nat)
    (ucs : List String) (instances : List Nat) (fuel : Nat)
    (st : CopyState) (n : Nat) (copied : List String) (p : PropModel)
    (hsc : shouldCopyProperty opts st.vals src tgt ucs p = true)
    (hpv : opts.previewOnly = true) :
    processProperty w opts src tgt ucs instances fuel (st, n, copied) p
      = some (st, n + 1, copied ++ [p.name]) := by
  unfold shouldCopyProperty at hsc
  rw [Bool.and_eq_true, Bool.and_eq_true] at hsc
  obtain ⟨⟨hc1, hc2⟩, hc3⟩ := hsc
  unfold processProperty
  simp only [hc1, hc2, hc3, hpv, ite_true, Bool.not_true, Bool.false_eq_true, ite_false]

theorem processProperty_copy (w : ComponentWorld) (opts : FCopyOptions) (src tgt : Nat)
    (ucs : List String) (instances : List Nat) (fuel : Nat)
    (st : CopyState) (n : Nat) (copied : List String) (p : PropModel)
    (hti : ∀ i ∈ instances, i ≠ tgt ∧ i ≠ src)
    (hsc : shouldCopyProperty opts st.vals src tgt ucs p = true)
    (hpv : opts.previewOnly = false) :
    processProperty w opts src tgt ucs instances fuel (st, n, copied) p = none ∨
    ∃ st', processProperty w opts src tgt ucs instances fuel (st, n, copied) p
        = some (st', n + 1, copied ++ [p.name]) ∧
      (∀ c q, q ≠ p.name → st'.vals c q = st.vals c q) ∧
      st'.vals tgt p.name = st.vals src p.name := by
  unfold shouldCopyProperty at hsc
  rw [Bool.and_eq_true, Bool.and_eq_true] at hsc
  obtain ⟨⟨hc1, hc2⟩, hc3⟩ := hsc
  unfold processProperty
  simp only [hc1, hc2, hc3, hpv, ite_true, Bool.not_true, Bool.false_eq_true, ite_false]
  cases hprop : opts.propagateChangesToArchetypeInstances with
  | false =>
    simp only [hprop, Bool.false_eq_true, ite_false]
    right
    refine ⟨_, rfl, ?_, ?_⟩
    · intro c q hq
      exact copySingleProperty_ne _ _ _ _ _ _ hq
    · exact copySingleProperty_self _ _ _ _
  | true =>
    simp only [hprop, ite_true]
    cases hmap : List.mapM (fun i => shouldPropagateToInstance w st.vals p.name tgt i fuel)
        instances with
    | none =>
      left
      simp [hmap]
    | some ds =>
      right
      simp only [hmap, Option.map_some']
      have hsub : ∀ x ∈ List.filterMap (fun pr => if pr.2 then some pr.1 else none)
          (List.zip instances ds), x ∈ instances := by
        intro x hx
        obtain ⟨⟨a, b⟩, hab, hx2⟩ := List.mem_filterMap.mp hx
        cases hb : b with
        | false =>
          rw [hb] at hx2
          simp at hx2
        | true =>
          rw [hb] at hx2
          simp only [ite_true] at hx2
          injection hx2 with hx3
          subst hx3
          exact (List.of_mem_zip hab).1
      refine ⟨_, rfl, ?_, ?_⟩
      · intro c q hq
        rw [propagateToInstances_vals w tgt p.name _ _ c q (Or.inl hq)]
        exact copySingleProperty_ne _ _ _ _ _ _ hq
      · have htgt : tgt ∉ List.filterMap (fun pr => if pr.2 then some pr.1 else none)
            (List.zip instances ds) := by
          intro hc
          exact (hti tgt (hsub tgt hc)).1 rfl
        rw [propagateToInstances_vals w tgt p.name _ _ tgt p.name (Or.inr htgt)]
        exact copySingleProperty_self _ _ _ _

theorem shouldCopyProperty_congr (opts : FCopyOptions) (v1 v2 : CompValues)
    (src tgt : Nat) (ucs : List String) (p : PropModel)
    (h1 : v1 src p.name = v2 src p.name) (h2 : v1 tgt p.name = v2 tgt p.name) :
    shouldCopyProperty opts v1 src tgt ucs p = shouldCopyProperty opts v2 src tgt ucs p := by
  unfold shouldCopyProperty
  rw [h1, h2]

theorem copyFold_preview (w : ComponentWorld) (opts : FCopyOptions) (src tgt : Nat)
    (ucs : List String) (instances : List Nat) (fuel : Nat)
    (hpv : opts.previewOnly = true) :
    ∀ (props : List PropModel) (st : CopyState) (n : Nat) (copied : List String),
      List.foldlM (processProperty w opts src tgt ucs instances fuel) (st, n, copied) props
        = some (st,
            n + (List.filter (fun pr => shouldCopyProperty opts st.vals src tgt ucs pr)
              props).length,
            copied ++ List.map PropModel.name
              (List.filter (fun pr => shouldCopyProperty opts st.vals src tgt ucs pr) props))
  | [], st, n, copied => by simp
  | p :: rest, st, n, copied => by
    cases hsc : shouldCopyProperty opts st.vals src tgt ucs p with
    | false =>
      rw [List.foldlM_cons,
        processProperty_skip w opts src tgt ucs instances fuel st n copied p hsc]
      have hbind : (some (st, n, copied) >>=
          fun x => List.foldlM (processProperty w opts src tgt ucs instances fuel) x rest)
          = List.foldlM (processProperty w opts src tgt ucs instances fuel) (st, n, copied)
              rest := rfl
      rw [hbind, copyFold_preview w opts src tgt ucs instances fuel hpv rest st n copied]
      simp only [List.filter_cons, hsc, Bool.false_eq_true, ite_false]
    | true =>
      rw [List.foldlM_cons,
        processProperty_preview w opts src tgt ucs instances fuel st n copied p hsc hpv]
      have hbind : (some (st, n + 1, copied ++ [p.name]) >>=
          fun x => List.foldlM (processProperty w opts src tgt ucs instances fuel) x rest)
          = List.foldlM (processProperty w opts src tgt ucs instances fuel)
              (st, n + 1, copied ++ [p.name]) rest := rfl
      rw [hbind,
        copyFold_preview w opts src tgt ucs instances fuel hpv rest st (n + 1)
          (copied ++ [p.name])]
      simp only [List.filter_cons, hsc, ite_true, List.map_cons, List.length_cons,
        Option.some.injEq, Prod.mk.injEq, List.append_assoc, List.singleton_append,
        true_and]
      exact ⟨by omega, True.intro⟩

theorem copyFold_spec (w : ComponentWorld) (opts : FCopyOptions) (src tgt : Nat)
    (ucs : List String) (instances : List Nat) (fuel : Nat)
    (hti : ∀ i ∈ instances, i ≠ tgt ∧ i ≠ src) :
    ∀ (props : List PropModel) (st : CopyState) (n : Nat) (copied : List String),
      (List.map PropModel.name props).Nodup →
      ∀ res, List.foldlM (processProperty w opts src tgt ucs instances fuel)
          (st, n, copied) props = some res →
        res.2.2 = copied ++ List.map PropModel.name
          (List.filter (fun pr => shouldCopyProperty opts st.vals src tgt ucs pr) props) ∧
        res.2.1 = n + (List.filter (fun pr => shouldCopyProperty opts st.vals src tgt ucs pr)
          props).length ∧
        (∀ c q, (∀ pr ∈ props, shouldCopyProperty opts st.vals src tgt ucs pr = true →
            q ≠ pr.name) → res.1.vals c q = st.vals c q) ∧
        (opts.previewOnly = false →
          ∀ pr ∈ props, shouldCopyProperty opts st.vals src tgt ucs pr = true →
            res.1.vals tgt pr.name = st.vals src pr.name)
  | [], st, n, copied => by
    intro _ res hres
    simp only [List.foldlM_nil] at hres
    injection hres with h
    subst h
    exact ⟨by simp, by simp, fun c q _ => rfl,
      fun _ pr hpr => absurd hpr (List.not_mem_nil pr)⟩
  | p :: rest, st, n, copied => by
    intro hnd res hres
    have hndr : (List.map PropModel.name rest).Nodup := by
      simp only [List.map_cons, List.nodup_cons] at hnd
      exact hnd.2
    have hpnotin : p.name ∉ List.map PropModel.name rest := by
      simp only [List.map_cons, List.nodup_cons] at hnd
      exact hnd.1
    rw [List.foldlM_cons] at hres
    cases hstep : processProperty w opts src tgt ucs instances fuel (st, n, copied) p with
    | none =>
      rw [hstep] at hres
      exact Option.noConfusion hres
    | some acc2 =>
      rw [hstep] at hres
      have hres2 : List.foldlM (processProperty w opts src tgt ucs instances fuel) acc2 rest
          = some res := hres
      cases hsc : shouldCopyProperty opts st.vals src tgt ucs p with
      | false =>
        have hskip := processProperty_skip w opts src tgt ucs instances fuel st n copied p hsc
        rw [hskip] at hstep
        injection hstep with h2
        subst h2
        obtain ⟨ih1, ih2, ih3, ih4⟩ := copyFold_spec w opts src tgt ucs instances fuel hti
          rest st n copied hndr res hres2
        refine ⟨?_, ?_, ?_, ?_⟩
        · rw [ih1]
          simp [List.filter_cons, hsc]
        · rw [ih2]
          simp [List.filter_cons, hsc]
        · intro c q hq
          exact ih3 c q (fun pr hpr => hq pr (List.mem_cons_of_mem _ hpr))
        · intro hpv pr hpr hprc
          rcases List.mem_cons.mp hpr with h | h
          · subst h
            rw [hsc] at hprc
            exact Bool.noConfusion hprc
          · exact ih4 hpv pr h hprc
      | true =>
        cases hpv : opts.previewOnly with
        | true =>
          have hprev := processProperty_preview w opts src tgt ucs instances fuel st n copied
            p hsc hpv
          rw [hprev] at hstep
          injection hstep with h2
          subst h2
          obtain ⟨ih1, ih2, ih3, ih4⟩ := copyFold_spec w opts src tgt ucs instances fuel hti
            rest st (n + 1) (copied ++ [p.name]) hndr res hres2
          refine ⟨?_, ?_, ?_, ?_⟩
          · rw [ih1]
            simp [List.filter_cons, hsc, List.append_assoc]
          · rw [ih2]
            simp only [List.filter_cons, hsc, ite_true, List.length_cons]
            omega
          · intro c q hq
            exact ih3 c q (fun pr hpr => hq pr (List.mem_cons_of_mem _ hpr))
          · intro hpv2
            exact Bool.noConfusion hpv2
        | false =>
          rcases processProperty_copy w opts src tgt ucs instances fuel st n copied p hti
            hsc hpv with hnone | ⟨st', heq, hframe, hwrite⟩
          · rw [hnone] at hstep
            exact Option.noConfusion hstep
          · rw [heq] at hstep
            injection hstep with h2
            subst h2
            have hcongr : ∀ pr ∈ rest, shouldCopyProperty opts st'.vals src tgt ucs pr
                = shouldCopyProperty opts st.vals src tgt ucs pr := by
              intro pr hpr
              have hne : pr.name ≠ p.name := by
                intro hc
                exact hpnotin (hc ▸ List.mem_map.mpr ⟨pr, hpr, rfl⟩)
              exact shouldCopyProperty_congr opts st'.vals st.vals src tgt ucs pr
                (hframe src pr.name hne) (hframe tgt pr.name hne)
            have hfil : List.filter (fun pr => shouldCopyProperty opts st'.vals src tgt ucs pr)
                rest
                = List.filter (fun pr => shouldCopyProperty opts st.vals src tgt ucs pr) rest :=
              List.filter_congr hcongr
            obtain ⟨ih1, ih2, ih3, ih4⟩ := copyFold_spec w opts src tgt ucs instances fuel hti
              rest st' (n + 1) (copied ++ [p.name]) hndr res hres2
            refine ⟨?_, ?_, ?_, ?_⟩
            · rw [ih1, hfil]
              simp [List.filter_cons, hsc, List.append_assoc]
            · rw [ih2, hfil]
              simp only [List.filter_cons, hsc, ite_true, List.length_cons]
              omega
            · intro c q hq
              have hyp3 : ∀ pr ∈ rest,
                  shouldCopyProperty opts st'.vals src tgt ucs pr = true → q ≠ pr.name := by
                intro pr hpr hprc
                rw [hcongr pr hpr] at hprc
                exact hq pr (List.mem_cons_of_mem _ hpr) hprc
              rw [ih3 c q hyp3]
              exact hframe c q (hq p (List.mem_cons_self p rest) hsc)
            · intro hpv2 pr hpr hprc
              rcases List.mem_cons.mp hpr with h | h
              · subst h
                have hyp3 : ∀ pr2 ∈ rest,
                    shouldCopyProperty opts st'.vals src tgt ucs pr2 = true →
                    pr.name ≠ pr2.name := by
                  intro pr2 hpr2 _ hc
                  exact hpnotin (hc ▸ List.mem_map.mpr ⟨pr2, hpr2, rfl⟩)
                rw [ih3 tgt pr.name hyp3]
                exact hwrite
              · have hprc2 : shouldCopyProperty opts st'.vals src tgt ucs pr = true := by
                  rw [hcongr pr h]
                  exact hprc
                rw [ih4 hpv pr h hprc2]
                have hne : pr.name ≠ p.name := fun hc =>
                  hpnotin (hc ▸ List.mem_map.mpr ⟨pr, h, rfl⟩)
                exact hframe src pr.name hne

theorem instances_ok (w : ComponentWorld) (opts : FCopyOptions) (src tgt : Nat) :
    ∀ i ∈ (if opts.propagateChangesToArchetypeInstances then
      List.filter (fun i => i ≠ src && i ≠ tgt) w.archetypeInstances else []),
      i ≠ tgt ∧ i ≠ src := by
  intro i hi
  cases hp : opts.propagateChangesToArchetypeInstances with
  | false =>
    rw [hp] at hi
    simp at hi
  | true =>
    rw [hp] at hi
    simp only [ite_true] at hi
    have hcond := (List.mem_filter.mp hi).2
    simp only [Bool.and_eq_true, decide_eq_true_eq] at hcond
    exact ⟨hcond.2, hcond.1⟩

/-! ## C3: which properties are copied -/

/-- C3 counterexample: a relative-transform property (`RelativeLocation`)
that is non-transient, non-identical between source and target, and not an
instanced reference is nevertheless not copied, because the copy loop also
excludes the relative-transform properties. -/
theorem copyComponentProperties_spec_condition_cex :
    specCopyCondition (fun c _ => c) 0 1
      ⟨"RelativeLocation", false, false, true, false⟩ = true ∧
    Option.map (fun r => (r.copiedPropertyCount, r.copiedProps))
      (CopyComponentProperties
        ⟨fun _ => 0, fun _ => false, fun _ => false, fun _ => none, []⟩
        ⟨false, false, false, false, false, fun _ => true⟩
        0 1 [⟨"RelativeLocation", false, false, true, false⟩] [] (fun c _ => c) 0)
      = some (0, []) :=
  ⟨rfl, rfl⟩

/-- C3 (amended): a property is copied from source to target exactly when
it is non-transient, non-identical between source and target, not an
instanced reference, not UCS-modified, not one of the relative-transform
properties, passes the `OnlyCopyEditOrInterp` / `SkipInstanceOnly` option
filters and passes `CanCopyProperty`; every target property whose name is
not among the copied ones keeps its value, and (outside preview mode)
every copied property ends with the source's value on the target. -/
theorem copyComponentProperties_copy_condition (w : ComponentWorld) (opts : FCopyOptions)
    (src tgt : Nat) (props : List PropModel) (ucs : List String) (vals : CompValues)
    (fuel : Nat) (r : CopyResult)
    (hnd : (List.map PropModel.name props).Nodup)
    (hrun : CopyComponentProperties w opts src tgt props ucs vals fuel = some r) :
    r.copiedProps = List.map PropModel.name
      (List.filter (fun pr => shouldCopyProperty opts vals src tgt ucs pr) props) ∧
    r.copiedPropertyCount
      = (List.filter (fun pr => shouldCopyProperty opts vals src tgt ucs pr) props).length ∧
    (∀ q, (∀ pr ∈ props, shouldCopyProperty opts vals src tgt ucs pr = true → q ≠ pr.name) →
      r.state.vals tgt q = vals tgt q) ∧
    (opts.previewOnly = false →
      ∀ pr ∈ props, shouldCopyProperty opts vals src tgt ucs pr = true →
        r.state.vals tgt pr.name = vals src pr.name) := by
  simp only [CopyComponentProperties] at hrun
  rw [Option.map_eq_some'] at hrun
  obtain ⟨res, hfold, hr⟩ := hrun
  subst hr
  obtain ⟨h1, h2, h3, h4⟩ := copyFold_spec w opts src tgt ucs _ fuel
    (instances_ok w opts src tgt) props _ 0 [] hnd res hfold
  refine ⟨?_, ?_, ?_, ?_⟩
  · rw [show (⟨res.1, res.2.1, res.2.2⟩ : CopyResult).copiedProps = res.2.2 from rfl, h1]
    simp
  · rw [show (⟨res.1, res.2.1, res.2.2⟩ : CopyResult).copiedPropertyCount = res.2.1 from rfl,
      h2]
    simp
  · intro q hq
    exact h3 tgt q hq
  · intro hpv pr hpr hprc
    exact h4 hpv pr hpr hprc

/-- Witness for C3 (amended): a single copyable property. -/
theorem copyComponentProperties_copy_condition_witness :
    ((fun (_w : ComponentWorld) (opts : FCopyOptions) (vals : CompValues)
        (props : List PropModel) (r : CopyResult) =>
      r.copiedProps = List.map PropModel.name
        (List.filter (fun pr => shouldCopyProperty opts vals 0 1 [] pr) props) ∧
      r.copiedPropertyCount
        = (List.filter (fun pr => shouldCopyProperty opts vals 0 1 [] pr) props).length ∧
      (∀ q, (∀ pr ∈ props, shouldCopyProperty opts vals 0 1 [] pr = true → q ≠ pr.name) →
        r.state.vals 1 q = vals 1 q) ∧
      (opts.previewOnly = false →
        ∀ pr ∈ props, shouldCopyProperty opts vals 0 1 [] pr = true →
          r.state.vals 1 pr.name = vals 0 pr.name))
      ⟨fun _ => 0, fun _ => false, fun _ => false, fun _ => none, []⟩
      ⟨false, false, false, false, false, fun _ => true⟩
      (fun c _ => c)
      [⟨"foo", false, false, false, false⟩]
      ⟨⟨copySingleProperty (fun c _ => c) 0 1 "foo", [EditorObj.comp 1], [1],
        [EditorObj.comp 1], []⟩, 1, ["foo"]⟩) :=
  copyComponentProperties_copy_condition
    ⟨fun _ => 0, fun _ => false, fun _ => false, fun _ => none, []⟩
    ⟨false, false, false, false, false, fun _ => true⟩
    0 1 [⟨"foo", false, false, false, false⟩] [] (fun c _ => c) 0
    ⟨⟨copySingleProperty (fun c _ => c) 0 1 "foo", [EditorObj.comp 1], [1],
      [EditorObj.comp 1], []⟩, 1, ["foo"]⟩
    (by simp) rfl

/-! ## C10: preview mode -/

/-- C10: with `PreviewOnly` set, `CopyComponentProperties` writes no
property value and marks nothing transactional, yet returns the same
copied-property count as the corresponding run without `PreviewOnly`. -/
theorem copyComponentProperties_preview_frame (w : ComponentWorld) (opts : FCopyOptions)
    (src tgt : Nat) (props : List PropModel) (ucs : List String) (vals : CompValues)
    (fuel fuelP : Nat) (r : CopyResult)
    (hnd : (List.map PropModel.name props).Nodup)
    (hrun : CopyComponentProperties w { opts with previewOnly := false } src tgt props ucs
      vals fuel = some r) :
    ∃ rp, CopyComponentProperties w { opts with previewOnly := true } src tgt props ucs
        vals fuelP = some rp ∧
      rp.copiedPropertyCount = r.copiedPropertyCount ∧
      rp.state.vals = vals ∧
      rp.state.transactionalFlagged = [] ∧
      rp.state.recordedForUndo = [] ∧
      rp.state.modifiedObjects = [] ∧
      rp.state.reregister = [] := by
  simp only [CopyComponentProperties] at hrun
  rw [Option.map_eq_some'] at hrun
  obtain ⟨res, hfold, hr⟩ := hrun
  subst hr
  obtain ⟨-, h2, -, -⟩ := copyFold_spec w { opts with previewOnly := false } src tgt ucs _
    fuel (instances_ok w _ src tgt) props _ 0 [] hnd res hfold
  have hprevfold := copyFold_preview w { opts with previewOnly := true } src tgt ucs
    (if opts.propagateChangesToArchetypeInstances then
      List.filter (fun i => i ≠ src && i ≠ tgt) w.archetypeInstances else [])
    fuelP rfl props ⟨vals, [], [], [], []⟩ 0 []
  have hPrevEq : CopyComponentProperties w { opts with previewOnly := true } src tgt props
      ucs vals fuelP
      = some ⟨⟨vals, [], [], [], []⟩,
          0 + (List.filter (fun pr => shouldCopyProperty { opts with previewOnly := true }
            (⟨vals, [], [], [], []⟩ : CopyState).vals src tgt ucs pr) props).length,
          [] ++ List.map PropModel.name
            (List.filter (fun pr => shouldCopyProperty { opts with previewOnly := true }
              (⟨vals, [], [], [], []⟩ : CopyState).vals src tgt ucs pr) props)⟩ := by
    simp only [CopyComponentProperties]
    rw [hprevfold]
    rfl
  refine ⟨_, hPrevEq, ?_, rfl, rfl, rfl, rfl, rfl⟩
  exact h2.symm

/-- Witness for C10: a single copyable property; the preview run changes
nothing and reports the same count as the real run. -/
theorem copyComponentProperties_preview_frame_witness :
    ∃ rp, CopyComponentProperties
        ⟨fun _ => 0, fun _ => false, fun _ => false, fun _ => none, []⟩
        { (⟨false, false, false, false, false, fun _ => true⟩ : FCopyOptions) with
          previewOnly := true }
        0 1 [⟨"foo", false, false, false, false⟩] [] (fun c _ => c) 0 = some rp ∧
      rp.copiedPropertyCount = 1 ∧
      rp.state.vals = (fun c _ => c) ∧
      rp.state.transactionalFlagged = [] ∧
      rp.state.recordedForUndo = [] ∧
      rp.state.modifiedObjects = [] ∧
      rp.state.reregister = [] :=
  copyComponentProperties_preview_frame
    ⟨fun _ => 0, fun _ => false, fun _ => false, fun _ => none, []⟩
    ⟨false, false, false, false, false, fun _ => true⟩
    0 1 [⟨"foo", false, false, false, false⟩] [] (fun c _ => c) 0 0
    ⟨⟨copySingleProperty (fun c _ => c) 0 1 "foo", [EditorObj.comp 1], [1],
      [EditorObj.comp 1], []⟩, 1, ["foo"]⟩
    (by simp) rfl
